import Mathlib

/-!
Verification of the `rs-float` numeric core (`src/float.rs`) against its
specification.

The crate gives `f32`/`f64` a uniform `Float` trait: bit-level
classification and decomposition plus transcendental operations.  We model
IEEE-754 bit patterns of either width as natural numbers below `2 ^ width`,
parameterised by a format record (exponent width, mantissa width), mirroring
the `impl_core_float!` macro that instantiates the identical operation body
at both widths.  Values are interpreted as exact rationals (`finVal`), with
NaN and the two infinities kept symbolic (`FVal`), and the arithmetic the
macro relies on (`/`, `-`, IEEE comparisons, `trunc`) is modelled by exact
rational computation followed by round-to-nearest-even.
-/

namespace Rsfloat

/-- An IEEE-754 binary interchange format: `f32` is `⟨8, 23⟩`, `f64` is
`⟨11, 52⟩`.  The sign occupies one further bit. -/
structure FloatFmt where
  exponentBits : ℕ
  mantissaBits : ℕ
deriving DecidableEq

/-- Single precision: 8 exponent bits, 23 mantissa bits. -/
def f32Fmt : FloatFmt := ⟨8, 23⟩

/-- Double precision: 11 exponent bits, 52 mantissa bits. -/
def f64Fmt : FloatFmt := ⟨11, 52⟩

/-- `core::num::FpCategory`, the result type of `classify`. -/
inductive FpCategory where
  | Nan
  | Infinite
  | Zero
  | Subnormal
  | Normal
deriving DecidableEq

/-- Interpretation of a bit pattern: NaN, a signed infinity, or a finite
rational value. -/
inductive FVal where
  | nan
  | inf (neg : Bool)
  | fin (q : ℚ)
deriving DecidableEq

namespace FloatFmt

/-- Total bit width of the format (64 for `f64`, 32 for `f32`). -/
def width (fmt : FloatFmt) : ℕ := fmt.exponentBits + fmt.mantissaBits + 1

/-- Exponent bias (1023 for `f64`, 127 for `f32`). -/
def bias (fmt : FloatFmt) : ℕ := 2 ^ (fmt.exponentBits - 1) - 1

/-- The all-ones exponent field (2047 for `f64`, 255 for `f32`). -/
def expMax (fmt : FloatFmt) : ℕ := 2 ^ fmt.exponentBits - 1

/-- The sign bit of a bit pattern (`bits >> 63` for `f64`). -/
def sgn (fmt : FloatFmt) (b : ℕ) : ℕ :=
  b / 2 ^ (fmt.exponentBits + fmt.mantissaBits) % 2

/-- The raw biased exponent field (`(bits >> 52) & 0x7ff` for `f64`). -/
def expField (fmt : FloatFmt) (b : ℕ) : ℕ :=
  b / 2 ^ fmt.mantissaBits % 2 ^ fmt.exponentBits

/-- The raw mantissa field (`bits & 0xfffffffffffff` for `f64`). -/
def manField (fmt : FloatFmt) (b : ℕ) : ℕ := b % 2 ^ fmt.mantissaBits

/-- A bit pattern of the format: a natural number below `2 ^ width`. -/
def Valid (fmt : FloatFmt) (b : ℕ) : Prop := b < 2 ^ fmt.width

instance (fmt : FloatFmt) (b : ℕ) : Decidable (fmt.Valid b) := by
  unfold Valid; infer_instance

/-- Bits of `+∞` (`0x7ff0000000000000` for `f64`): exponent field all ones,
mantissa zero, sign clear. -/
def infinityBits (fmt : FloatFmt) : ℕ := fmt.expMax * 2 ^ fmt.mantissaBits

/-- Bits of `-∞` (`0xfff0000000000000` for `f64`). -/
def negInfinityBits (fmt : FloatFmt) : ℕ :=
  2 ^ (fmt.exponentBits + fmt.mantissaBits) + fmt.infinityBits

/-- Bits of the canonical quiet NaN (`0x7ff8000000000000` for `f64`),
the value of `core::f64::NAN`. -/
def nanBits (fmt : FloatFmt) : ℕ :=
  fmt.infinityBits + 2 ^ (fmt.mantissaBits - 1)

/-- Bits of `-0.0`, the value returned by `neg_zero()`. -/
def negZeroBits (fmt : FloatFmt) : ℕ := 2 ^ (fmt.exponentBits + fmt.mantissaBits)

/-- Bits of `1.0` (`0x3ff0000000000000` for `f64`). -/
def oneBits (fmt : FloatFmt) : ℕ := fmt.bias * 2 ^ fmt.mantissaBits

/-- Bits of machine epsilon `2^(-mantissaBits)`, the value of `EPSILON`. -/
def epsilonBits (fmt : FloatFmt) : ℕ :=
  (fmt.bias - fmt.mantissaBits) * 2 ^ fmt.mantissaBits

/-- Unbiased exponent of the least significant mantissa bit: `E - bias - mw`
for a normal value with exponent field `E`, and `1 - bias - mw` for
subnormals and zero. -/
def unbiasedExp (fmt : FloatFmt) (b : ℕ) : ℤ :=
  (max (fmt.expField b) 1 : ℕ) - (fmt.bias : ℤ) - fmt.mantissaBits

/-- Integer significand: the mantissa field, with the implicit leading bit
added for normal values. -/
def sig (fmt : FloatFmt) (b : ℕ) : ℕ :=
  if fmt.expField b = 0 then fmt.manField b
  else fmt.manField b + 2 ^ fmt.mantissaBits

/-- Exact rational value of a finite bit pattern (0 for both zeros). -/
def finVal (fmt : FloatFmt) (b : ℕ) : ℚ :=
  (if fmt.sgn b = 1 then -1 else 1) * fmt.sig b * (2 : ℚ) ^ fmt.unbiasedExp b

/-- Interpretation of a bit pattern as a NaN, an infinity or a finite
rational. -/
def toVal (fmt : FloatFmt) (b : ℕ) : FVal :=
  if fmt.expField b = fmt.expMax then
    (if fmt.manField b = 0 then .inf (decide (fmt.sgn b = 1)) else .nan)
  else .fin (fmt.finVal b)

/-- IEEE equality on bit patterns: NaN is unequal to everything (itself
included) and `-0.0 == 0.0`. -/
def feq (fmt : FloatFmt) (a b : ℕ) : Bool :=
  match fmt.toVal a, fmt.toVal b with
  | .fin p, .fin q => decide (p = q)
  | .inf s, .inf t => s == t
  | _, _ => false

/-- IEEE strict less-than on bit patterns: false whenever one operand is
NaN. -/
def flt (fmt : FloatFmt) (a b : ℕ) : Bool :=
  match fmt.toVal a, fmt.toVal b with
  | .nan, _ => false
  | _, .nan => false
  | .inf s, .inf t => s && !t
  | .inf s, .fin _ => s
  | .fin _, .inf t => !t
  | .fin p, .fin q => decide (p < q)

/-- IEEE strict greater-than on bit patterns. -/
def fgt (fmt : FloatFmt) (a b : ℕ) : Bool := fmt.flt b a

/-- `is_nan` from `impl_core_float!`: `*self != *self`. -/
def is_nan (fmt : FloatFmt) (b : ℕ) : Bool := !(fmt.feq b b)

/-- `is_infinite` from `impl_core_float!`:
`*self == INFINITY || *self == NEG_INFINITY`. -/
def is_infinite (fmt : FloatFmt) (b : ℕ) : Bool :=
  fmt.feq b fmt.infinityBits || fmt.feq b fmt.negInfinityBits

/-- `is_finite` from `impl_core_float!`:
`!(self.is_nan() || self.is_infinite())`. -/
def is_finite (fmt : FloatFmt) (b : ℕ) : Bool :=
  !(fmt.is_nan b || fmt.is_infinite b)

/-- `classify` (lines 121–133 for `f32`, 252–265 for `f64`): match on the
masked mantissa and exponent fields, in the source's arm order. -/
def classify (fmt : FloatFmt) (b : ℕ) : FpCategory :=
  if fmt.manField b = 0 ∧ fmt.expField b = 0 then .Zero
  else if fmt.expField b = 0 then .Subnormal
  else if fmt.manField b = 0 ∧ fmt.expField b = fmt.expMax then .Infinite
  else if fmt.expField b = fmt.expMax then .Nan
  else .Normal

/-- `is_normal` from `impl_core_float!`:
`self.classify() == FpCategory::Normal`. -/
def is_normal (fmt : FloatFmt) (b : ℕ) : Bool :=
  decide (fmt.classify b = FpCategory.Normal)

end FloatFmt

/-- Round-to-nearest integer, ties to even, on an exact rational. -/
def rne (x : ℚ) : ℤ :=
  let f := ⌊x⌋
  let r := x - f
  if r < 1 / 2 then f
  else if 1 / 2 < r then f + 1
  else if 2 ∣ f then f else f + 1

/-- `⌊log₂ q⌋` for a positive rational, computed from `Nat.log2` of the
numerator and denominator with a one-step correction. -/
def qlog2 (q : ℚ) : ℤ :=
  let g : ℤ := (Nat.log2 q.num.natAbs : ℤ) - (Nat.log2 q.den : ℤ)
  if q < (2 : ℚ) ^ g then g - 1
  else if (2 : ℚ) ^ (g + 1) ≤ q then g + 1
  else g

namespace FloatFmt

/-- Smallest unbiased exponent of the format: `1 - bias - mantissaBits`
(`-1074` for `f64`); subnormals are the multiples of `2 ^ minExp`. -/
def minExp (fmt : FloatFmt) : ℤ := 1 - (fmt.bias : ℤ) - fmt.mantissaBits

/-- Encode a rounded integer significand `m` at scale `e` (value `m·2^e`,
`0 ≤ m < 2^(mw+1)`) as a sign-clear bit pattern: zero, subnormal
(`m < 2^mw`, at `e = minExp`), normal, or `+∞` when the biased exponent
overflows. -/
def encodePos (fmt : FloatFmt) (m e : ℤ) : ℕ :=
  if m = 0 then 0
  else if m < 2 ^ fmt.mantissaBits then m.toNat
  else if (fmt.expMax : ℤ) ≤ e + fmt.bias + fmt.mantissaBits then fmt.infinityBits
  else (e + fmt.bias + fmt.mantissaBits).toNat * 2 ^ fmt.mantissaBits
    + (m.toNat - 2 ^ fmt.mantissaBits)

/-- IEEE-754 round-to-nearest-even of a positive rational to a (sign-clear)
bit pattern of the format, with overflow to `+∞`: pick the scale `e`, round
the significand `q / 2^e` to an integer, renormalise if the rounding carried
out to `2^(mw+1)`, and encode. -/
def roundPos (fmt : FloatFmt) (q : ℚ) : ℕ :=
  let e : ℤ := max fmt.minExp (qlog2 q - fmt.mantissaBits)
  let m0 : ℤ := rne (q * (2 : ℚ) ^ (-e))
  if m0 = 2 ^ (fmt.mantissaBits + 1) then fmt.encodePos (2 ^ fmt.mantissaBits) (e + 1)
  else fmt.encodePos m0 e

/-- Round a signed exact rational to a bit pattern (exact zero gets `+0`). -/
def roundQ (fmt : FloatFmt) (q : ℚ) : ℕ :=
  if q < 0 then 2 ^ (fmt.exponentBits + fmt.mantissaBits) + fmt.roundPos (-q)
  else if q = 0 then 0
  else fmt.roundPos q

/-- Whether the bit pattern is `±0` (both fields zero). -/
def isZeroBits (fmt : FloatFmt) (b : ℕ) : Prop :=
  fmt.expField b = 0 ∧ fmt.manField b = 0

instance (fmt : FloatFmt) (b : ℕ) : Decidable (fmt.isZeroBits b) := by
  unfold isZeroBits; infer_instance

/-- Whether the bit pattern is `±∞`. -/
def isInfBits (fmt : FloatFmt) (b : ℕ) : Prop :=
  fmt.expField b = fmt.expMax ∧ fmt.manField b = 0

instance (fmt : FloatFmt) (b : ℕ) : Decidable (fmt.isInfBits b) := by
  unfold isInfBits; infer_instance

/-- Whether the bit pattern is a NaN. -/
def isNanBits (fmt : FloatFmt) (b : ℕ) : Prop :=
  fmt.expField b = fmt.expMax ∧ fmt.manField b ≠ 0

instance (fmt : FloatFmt) (b : ℕ) : Decidable (fmt.isNanBits b) := by
  unfold isNanBits; infer_instance

/-- `±∞` with the given sign bit. -/
def signedInf (fmt : FloatFmt) (s : ℕ) : ℕ :=
  s * 2 ^ (fmt.exponentBits + fmt.mantissaBits) + fmt.infinityBits

/-- `±0` with the given sign bit. -/
def signedZero (fmt : FloatFmt) (s : ℕ) : ℕ :=
  s * 2 ^ (fmt.exponentBits + fmt.mantissaBits)

/-- Magnitude of a finite bit pattern as an exact rational. -/
def magQ (fmt : FloatFmt) (b : ℕ) : ℚ :=
  (fmt.sig b : ℚ) * (2 : ℚ) ^ fmt.unbiasedExp b

/-- IEEE-754 division of bit patterns (model of the primitive `/` the macro
uses in `recip`, `is_sign_positive`, `is_sign_negative` and `log`):
NaN propagation, the usual special cases for infinities and zeros with the
XOR-ed sign, and correctly rounded exact division otherwise. -/
def fdiv (fmt : FloatFmt) (a b : ℕ) : ℕ :=
  if fmt.isNanBits a ∨ fmt.isNanBits b then fmt.nanBits
  else
    let s := (fmt.sgn a + fmt.sgn b) % 2
    if fmt.isInfBits a then
      (if fmt.isInfBits b then fmt.nanBits else fmt.signedInf s)
    else if fmt.isInfBits b then fmt.signedZero s
    else if fmt.isZeroBits b then
      (if fmt.isZeroBits a then fmt.nanBits else fmt.signedInf s)
    else if fmt.isZeroBits a then fmt.signedZero s
    else fmt.signedZero s + fmt.roundPos (fmt.magQ a / fmt.magQ b)

/-- IEEE-754 subtraction of bit patterns (model of the primitive `-` used by
`fract`): NaN propagation, infinity handling, the round-to-nearest-even
signed-zero convention for an exact zero difference, and correctly rounded
exact subtraction otherwise. -/
def fsub (fmt : FloatFmt) (a b : ℕ) : ℕ :=
  if fmt.isNanBits a ∨ fmt.isNanBits b then fmt.nanBits
  else if fmt.isInfBits a then
    (if fmt.isInfBits b then
      (if fmt.sgn a = fmt.sgn b then fmt.nanBits else a)
    else a)
  else if fmt.isInfBits b then fmt.signedInf (1 - fmt.sgn b)
  else
    let d := (if fmt.sgn a = 1 then -1 else 1) * fmt.magQ a
      - (if fmt.sgn b = 1 then -1 else 1) * fmt.magQ b
    if d = 0 then
      (if fmt.sgn a = 1 ∧ fmt.sgn b = 0 then fmt.signedZero 1 else 0)
    else fmt.roundQ d

/-- Model of the `truncf32`/`truncf64` compiler intrinsics (not part of this
crate): IEEE-754 roundTowardZero to an integral value, computed by clearing
the fractional mantissa bits.  NaN and infinities are returned unchanged,
magnitudes below one collapse to a signed zero. -/
def trunc (fmt : FloatFmt) (b : ℕ) : ℕ :=
  if fmt.expField b = fmt.expMax then b
  else if fmt.expField b < fmt.bias then fmt.signedZero (fmt.sgn b)
  else if fmt.bias + fmt.mantissaBits ≤ fmt.expField b then b
  else
    let k := fmt.bias + fmt.mantissaBits - fmt.expField b
    fmt.sgn b * 2 ^ (fmt.exponentBits + fmt.mantissaBits)
      + fmt.expField b * 2 ^ fmt.mantissaBits
      + fmt.manField b / 2 ^ k * 2 ^ k

/-- `fract` from `impl_core_float!`: `*self - self.trunc()`. -/
def fract (fmt : FloatFmt) (b : ℕ) : ℕ := fmt.fsub b (fmt.trunc b)

/-- `recip` from `impl_core_float!`: `1.0 / *self`. -/
def recip (fmt : FloatFmt) (b : ℕ) : ℕ := fmt.fdiv fmt.oneBits b

/-- `is_sign_positive` from `impl_core_float!`:
`*self > 0.0 || (1.0 / *self) == INFINITY`. -/
def is_sign_positive (fmt : FloatFmt) (b : ℕ) : Bool :=
  fmt.fgt b 0 || fmt.feq (fmt.fdiv fmt.oneBits b) fmt.infinityBits

/-- `is_sign_negative` from `impl_core_float!`:
`*self < 0.0 || (1.0 / *self) == NEG_INFINITY`. -/
def is_sign_negative (fmt : FloatFmt) (b : ℕ) : Bool :=
  fmt.flt b 0 || fmt.feq (fmt.fdiv fmt.oneBits b) fmt.negInfinityBits

/-- `log` from `impl_core_float!`: `self.ln() / base.ln()`, for whatever
bit-level implementation `lnf` of `ln` the build resolved (a compiler
primitive, or the double-precision fallback on the msvc environment). -/
def log (fmt : FloatFmt) (lnf : ℕ → ℕ) (x base : ℕ) : ℕ :=
  fmt.fdiv (lnf x) (lnf base)

end FloatFmt

/-- `integer_decode` for `f64` (lines 350–363), decoding the value's own
IEEE-754 bit pattern — i.e. the intended `mem::transmute(*self)`.  The
shipped code transmutes `self` (a `&f64`), so it actually decodes the
64-bit memory address of the value; see the theorems for `C1`, `C2` and
`C7`.  Components are `(mantissa : u64, exponent : i16, sign : i8)`; both
integer results fit their machine types, so they are modelled as `ℤ`. -/
def integer_decode (b : ℕ) : ℕ × ℤ × ℤ :=
  let sign : ℤ := if b / 2 ^ 63 = 0 then 1 else -1
  let exponent : ℤ := (b / 2 ^ 52 % 2 ^ 11 : ℕ)
  let mantissa : ℕ :=
    if b / 2 ^ 52 % 2 ^ 11 = 0 then b % 2 ^ 52 * 2
    else b % 2 ^ 52 + 2 ^ 52
  (mantissa, exponent - (1023 + 52), sign)

/-- Model of the primitive `f32`-to-`f64` cast `*self as f64` (line 245):
the conversion is exact, so it re-encodes the `f32` fields as `f64` bits,
normalising subnormals with `Nat.log2`. -/
def widen32 (b : ℕ) : ℕ :=
  let s := f32Fmt.sgn b
  let e := f32Fmt.expField b
  let m := f32Fmt.manField b
  if e = 255 then
    (if m = 0 then s * 2 ^ 63 + f64Fmt.infinityBits
     else s * 2 ^ 63 + f64Fmt.infinityBits + m * 2 ^ 29)
  else if e = 0 then
    (if m = 0 then s * 2 ^ 63
     else
       let l := Nat.log2 m
       s * 2 ^ 63 + (l + 874) * 2 ^ 52 + (m - 2 ^ l) * 2 ^ (52 - l))
  else s * 2 ^ 63 + (e + 896) * 2 ^ 52 + m * 2 ^ 29

/-- `integer_decode` for `f32` (lines 242–246): delegate to the `f64`
decoder after widening, `Float::integer_decode(&(*self as f64))` (again with
the intended dereference; the shipped code decodes the temporary's
address). -/
def integer_decode32 (b : ℕ) : ℕ × ℤ × ℤ := integer_decode (widen32 b)

/-- Modelled from Rust's floating-literal semantics (language-level, not
part of this crate): a decimal floating literal denotes the representable
double nearest its exact decimal value, so the pattern `b` it parses to
lies strictly within half an ulp of that value (away from ties). -/
def parsesTo (fmt : FloatFmt) (q : ℚ) (b : ℕ) : Prop :=
  fmt.Valid b ∧ fmt.expField b ≠ fmt.expMax ∧
  |q - fmt.finVal b| < (2 : ℚ) ^ fmt.unbiasedExp b / 2

/-- Modelled from the spec: the four external math-library entry points
(`cbrt`, `expm1`, `hypot`, `log1p` — C functions linked from the platform
math library, with no source in this crate) are a thin pass-through whose
results are exactly what the underlying library defines; a standard
platform libm documents these functions as accurate to within one ulp of
the exact mathematical result, without promising the nearest double.
`ulpContract fmt r b` states that the finite pattern `b` is within that
tolerance of exact result `r`. -/
def ulpContract (fmt : FloatFmt) (r : ℝ) (b : ℕ) : Prop :=
  fmt.Valid b ∧ fmt.expField b ≠ fmt.expMax ∧
  |r - ((fmt.finVal b : ℚ) : ℝ)| < (2 : ℝ) ^ fmt.unbiasedExp b

/-! ### Bit-field kit -/

namespace FloatFmt

variable {fmt : FloatFmt} {b s E M : ℕ}

theorem manField_lt (fmt : FloatFmt) (b : ℕ) :
    fmt.manField b < 2 ^ fmt.mantissaBits :=
  Nat.mod_lt _ (Nat.pos_pow_of_pos _ (by norm_num))

theorem expField_lt (fmt : FloatFmt) (b : ℕ) :
    fmt.expField b < 2 ^ fmt.exponentBits :=
  Nat.mod_lt _ (Nat.pos_pow_of_pos _ (by norm_num))

theorem sgn_le (fmt : FloatFmt) (b : ℕ) : fmt.sgn b ≤ 1 :=
  Nat.lt_succ_iff.mp (Nat.mod_lt _ (by norm_num))

theorem expMax_lt (fmt : FloatFmt) : fmt.expMax < 2 ^ fmt.exponentBits :=
  Nat.sub_lt (Nat.pos_pow_of_pos _ (by norm_num)) (by norm_num)

/-- The composite pattern `s·2^(ew+mw) + E·2^mw + M`, written in the
nested form the arithmetic lemmas apply to. -/
theorem mkBits_eq (fmt : FloatFmt) (s E M : ℕ) :
    M + 2 ^ fmt.mantissaBits * (E + 2 ^ fmt.exponentBits * s)
      = s * 2 ^ (fmt.exponentBits + fmt.mantissaBits)
        + E * 2 ^ fmt.mantissaBits + M := by
  rw [pow_add]; ring

theorem manField_mk (fmt : FloatFmt) (hM : M < 2 ^ fmt.mantissaBits) :
    fmt.manField (s * 2 ^ (fmt.exponentBits + fmt.mantissaBits)
      + E * 2 ^ fmt.mantissaBits + M) = M := by
  rw [← fmt.mkBits_eq, manField, Nat.add_mul_mod_self_left, Nat.mod_eq_of_lt hM]

theorem expField_mk (fmt : FloatFmt) (hE : E < 2 ^ fmt.exponentBits)
    (hM : M < 2 ^ fmt.mantissaBits) :
    fmt.expField (s * 2 ^ (fmt.exponentBits + fmt.mantissaBits)
      + E * 2 ^ fmt.mantissaBits + M) = E := by
  rw [← fmt.mkBits_eq, expField,
    Nat.add_mul_div_left _ _ (Nat.pos_pow_of_pos _ (by norm_num)),
    Nat.div_eq_of_lt hM, Nat.zero_add, Nat.add_mul_mod_self_left,
    Nat.mod_eq_of_lt hE]

theorem sgn_mk (fmt : FloatFmt) (hs : s ≤ 1) (hE : E < 2 ^ fmt.exponentBits)
    (hM : M < 2 ^ fmt.mantissaBits) :
    fmt.sgn (s * 2 ^ (fmt.exponentBits + fmt.mantissaBits)
      + E * 2 ^ fmt.mantissaBits + M) = s := by
  have hpos : 0 < 2 ^ (fmt.exponentBits + fmt.mantissaBits) :=
    Nat.pos_pow_of_pos _ (by norm_num)
  have hlt : E * 2 ^ fmt.mantissaBits + M < 2 ^ (fmt.exponentBits + fmt.mantissaBits) := by
    calc E * 2 ^ fmt.mantissaBits + M
        < E * 2 ^ fmt.mantissaBits + 2 ^ fmt.mantissaBits := by omega
      _ = (E + 1) * 2 ^ fmt.mantissaBits := by ring
      _ ≤ 2 ^ fmt.exponentBits * 2 ^ fmt.mantissaBits :=
          Nat.mul_le_mul_right _ (by omega)
      _ = 2 ^ (fmt.exponentBits + fmt.mantissaBits) := (pow_add 2 _ _).symm
  rw [sgn, add_assoc, Nat.mul_comm s, Nat.mul_add_div hpos,
    Nat.div_eq_of_lt hlt, Nat.add_zero, Nat.mod_eq_of_lt (by omega)]

/-- Every valid bit pattern decomposes into its three fields. -/
theorem bits_decomp (fmt : FloatFmt) (hb : fmt.Valid b) :
    b = fmt.sgn b * 2 ^ (fmt.exponentBits + fmt.mantissaBits)
      + fmt.expField b * 2 ^ fmt.mantissaBits + fmt.manField b := by
  have hP : 0 < 2 ^ fmt.mantissaBits := Nat.pos_pow_of_pos _ (by norm_num)
  have hQ : 0 < 2 ^ fmt.exponentBits := Nat.pos_pow_of_pos _ (by norm_num)
  have h3 : b / 2 ^ fmt.mantissaBits / 2 ^ fmt.exponentBits
      = b / 2 ^ (fmt.exponentBits + fmt.mantissaBits) := by
    rw [Nat.div_div_eq_div_mul, ← pow_add, Nat.add_comm]
  have h4 : b / 2 ^ (fmt.exponentBits + fmt.mantissaBits) < 2 := by
    have hlt : b < 2 ^ (fmt.exponentBits + fmt.mantissaBits) * 2 := by
      have hv := hb; unfold Valid width at hv
      calc b < 2 ^ (fmt.exponentBits + fmt.mantissaBits + 1) := hv
        _ = 2 ^ (fmt.exponentBits + fmt.mantissaBits) * 2 := by rw [pow_succ]
    exact Nat.div_lt_of_lt_mul hlt
  have h5 : fmt.sgn b = b / 2 ^ fmt.mantissaBits / 2 ^ fmt.exponentBits := by
    rw [sgn, Nat.mod_eq_of_lt h4, h3]
  rw [manField, expField, h5]
  calc b = b % 2 ^ fmt.mantissaBits
        + 2 ^ fmt.mantissaBits * (b / 2 ^ fmt.mantissaBits) :=
      (Nat.mod_add_div _ _).symm
    _ = b % 2 ^ fmt.mantissaBits + 2 ^ fmt.mantissaBits
        * (b / 2 ^ fmt.mantissaBits % 2 ^ fmt.exponentBits
          + 2 ^ fmt.exponentBits
            * (b / 2 ^ fmt.mantissaBits / 2 ^ fmt.exponentBits)) := by
      simp [Nat.mod_add_div]
    _ = b / 2 ^ fmt.mantissaBits / 2 ^ fmt.exponentBits
          * 2 ^ (fmt.exponentBits + fmt.mantissaBits)
        + b / 2 ^ fmt.mantissaBits % 2 ^ fmt.exponentBits * 2 ^ fmt.mantissaBits
        + b % 2 ^ fmt.mantissaBits := by
      rw [pow_add]; ring

/-! ### Interpretation lemmas -/

theorem toVal_fin (h : fmt.expField b ≠ fmt.expMax) :
    fmt.toVal b = .fin (fmt.finVal b) := by
  unfold toVal; simp [h]

theorem toVal_nan (h1 : fmt.expField b = fmt.expMax) (h2 : fmt.manField b ≠ 0) :
    fmt.toVal b = .nan := by
  unfold toVal; simp [h1, h2]

theorem toVal_inf (h1 : fmt.expField b = fmt.expMax) (h2 : fmt.manField b = 0) :
    fmt.toVal b = .inf (decide (fmt.sgn b = 1)) := by
  unfold toVal; simp [h1, h2]

theorem expField_infinityBits (fmt : FloatFmt) :
    fmt.expField fmt.infinityBits = fmt.expMax := by
  have h := fmt.expField_mk (s := 0) (E := fmt.expMax) (M := 0)
    fmt.expMax_lt (Nat.pos_pow_of_pos _ (by norm_num))
  simpa [infinityBits] using h

theorem manField_infinityBits (fmt : FloatFmt) :
    fmt.manField fmt.infinityBits = 0 := by
  have h := fmt.manField_mk (s := 0) (E := fmt.expMax) (M := 0)
    (Nat.pos_pow_of_pos _ (by norm_num))
  simpa [infinityBits] using h

theorem sgn_infinityBits (fmt : FloatFmt) : fmt.sgn fmt.infinityBits = 0 := by
  have h := fmt.sgn_mk (s := 0) (E := fmt.expMax) (M := 0) (by norm_num)
    fmt.expMax_lt (Nat.pos_pow_of_pos _ (by norm_num))
  simpa [infinityBits] using h

theorem expField_negInfinityBits (fmt : FloatFmt) :
    fmt.expField fmt.negInfinityBits = fmt.expMax := by
  have h := fmt.expField_mk (s := 1) (E := fmt.expMax) (M := 0)
    fmt.expMax_lt (Nat.pos_pow_of_pos _ (by norm_num))
  simpa [negInfinityBits, infinityBits, Nat.add_comm] using h

theorem manField_negInfinityBits (fmt : FloatFmt) :
    fmt.manField fmt.negInfinityBits = 0 := by
  have h := fmt.manField_mk (s := 1) (E := fmt.expMax) (M := 0)
    (Nat.pos_pow_of_pos _ (by norm_num))
  simpa [negInfinityBits, infinityBits, Nat.add_comm] using h

theorem sgn_negInfinityBits (fmt : FloatFmt) :
    fmt.sgn fmt.negInfinityBits = 1 := by
  have h := fmt.sgn_mk (s := 1) (E := fmt.expMax) (M := 0) (by norm_num)
    fmt.expMax_lt (Nat.pos_pow_of_pos _ (by norm_num))
  simpa [negInfinityBits, infinityBits, Nat.add_comm] using h

theorem toVal_infinityBits (fmt : FloatFmt) :
    fmt.toVal fmt.infinityBits = .inf false := by
  rw [toVal_inf fmt.expField_infinityBits fmt.manField_infinityBits,
    fmt.sgn_infinityBits]
  simp

theorem toVal_negInfinityBits (fmt : FloatFmt) :
    fmt.toVal fmt.negInfinityBits = .inf true := by
  rw [toVal_inf fmt.expField_negInfinityBits fmt.manField_negInfinityBits,
    fmt.sgn_negInfinityBits]
  simp

/-- `is_nan` detects exactly the NaN field layouts: the claim follows from
IEEE self-inequality of NaN. -/
theorem is_nan_iff (fmt : FloatFmt) (b : ℕ) :
    fmt.is_nan b = true ↔ fmt.isNanBits b := by
  unfold is_nan feq isNanBits
  by_cases h1 : fmt.expField b = fmt.expMax
  · by_cases h2 : fmt.manField b = 0
    · rw [toVal_inf h1 h2]; simp [h1, h2]
    · rw [toVal_nan h1 h2]; simp [h1, h2]
  · rw [toVal_fin h1]; simp [h1]

/-- `is_infinite` detects exactly the two infinity patterns. -/
theorem is_infinite_iff (fmt : FloatFmt) (b : ℕ) :
    fmt.is_infinite b = true ↔ fmt.isInfBits b := by
  unfold is_infinite isInfBits
  unfold feq
  rw [fmt.toVal_infinityBits, fmt.toVal_negInfinityBits]
  by_cases h1 : fmt.expField b = fmt.expMax
  · by_cases h2 : fmt.manField b = 0
    · rw [toVal_inf h1 h2]
      rcases Nat.lt_succ_iff.mp (Nat.lt_succ_of_le (fmt.sgn_le b)) with hs
      interval_cases hsv : fmt.sgn b <;> simp [h1, h2]
    · rw [toVal_nan h1 h2]; simp [h1, h2]
  · rw [toVal_fin h1]; simp [h1]

theorem classify_eq_nan_iff (fmt : FloatFmt) (he : fmt.expMax ≠ 0) (b : ℕ) :
    fmt.classify b = FpCategory.Nan ↔ fmt.isNanBits b := by
  unfold classify isNanBits
  split_ifs with h1 h2 h3 h4 <;> simp_all <;> omega

theorem classify_eq_inf_iff (fmt : FloatFmt) (he : fmt.expMax ≠ 0) (b : ℕ) :
    fmt.classify b = FpCategory.Infinite ↔ fmt.isInfBits b := by
  unfold classify isInfBits
  split_ifs with h1 h2 h3 h4 <;> simp_all <;> omega

theorem classify_eq_normal_iff (fmt : FloatFmt) (b : ℕ) :
    fmt.classify b = FpCategory.Normal
      ↔ (fmt.expField b ≠ 0 ∧ fmt.expField b ≠ fmt.expMax) := by
  unfold classify
  split_ifs with h1 h2 h3 h4 <;> simp_all

/-! ### Format sanity facts and concrete patterns -/

theorem bias_pos (h2 : 2 ≤ fmt.exponentBits) : 0 < fmt.bias := by
  unfold bias
  have hle : 2 ^ 1 ≤ 2 ^ (fmt.exponentBits - 1) :=
    Nat.pow_le_pow_right (by norm_num) (by omega)
  omega

theorem bias_lt_expMax (h2 : 2 ≤ fmt.exponentBits) : fmt.bias < fmt.expMax := by
  unfold bias expMax
  have hlt : 2 ^ (fmt.exponentBits - 1) < 2 ^ fmt.exponentBits :=
    Nat.pow_lt_pow_right (by norm_num) (by omega)
  have hp : 0 < 2 ^ (fmt.exponentBits - 1) := Nat.pos_pow_of_pos _ (by norm_num)
  omega

theorem bias_lt_pow (h2 : 2 ≤ fmt.exponentBits) :
    fmt.bias < 2 ^ fmt.exponentBits :=
  lt_trans (bias_lt_expMax h2) fmt.expMax_lt

theorem expMax_pos (h2 : 2 ≤ fmt.exponentBits) : 0 < fmt.expMax := by
  unfold expMax
  have hle : 2 ^ 2 ≤ 2 ^ fmt.exponentBits :=
    Nat.pow_le_pow_right (by norm_num) h2
  omega

theorem sgn_zeroBits (fmt : FloatFmt) : fmt.sgn 0 = 0 := by
  simp [sgn]

theorem expField_zeroBits (fmt : FloatFmt) : fmt.expField 0 = 0 := by
  simp [expField]

theorem manField_zeroBits (fmt : FloatFmt) : fmt.manField 0 = 0 := by
  simp [manField]

theorem sgn_negZeroBits (fmt : FloatFmt) : fmt.sgn fmt.negZeroBits = 1 := by
  have h := fmt.sgn_mk (s := 1) (E := 0) (M := 0) (by norm_num)
    (Nat.pos_pow_of_pos _ (by norm_num)) (Nat.pos_pow_of_pos _ (by norm_num))
  simpa [negZeroBits] using h

theorem expField_negZeroBits (fmt : FloatFmt) :
    fmt.expField fmt.negZeroBits = 0 := by
  have h := fmt.expField_mk (s := 1) (E := 0) (M := 0)
    (Nat.pos_pow_of_pos _ (by norm_num)) (Nat.pos_pow_of_pos _ (by norm_num))
  simpa [negZeroBits] using h

theorem manField_negZeroBits (fmt : FloatFmt) :
    fmt.manField fmt.negZeroBits = 0 := by
  have h := fmt.manField_mk (s := 1) (E := 0) (M := 0)
    (Nat.pos_pow_of_pos _ (by norm_num))
  simpa [negZeroBits] using h

theorem finVal_of_zeroBits (hE : fmt.expField b = 0) (hM : fmt.manField b = 0) :
    fmt.finVal b = 0 := by
  simp [finVal, sig, hE, hM]

theorem toVal_zeroBits (he : fmt.expMax ≠ 0) : fmt.toVal 0 = .fin 0 := by
  rw [toVal_fin (by rw [fmt.expField_zeroBits]; exact fun h => he h.symm),
    finVal_of_zeroBits fmt.expField_zeroBits fmt.manField_zeroBits]

theorem toVal_negZeroBits (he : fmt.expMax ≠ 0) :
    fmt.toVal fmt.negZeroBits = .fin 0 := by
  rw [toVal_fin (by rw [fmt.expField_negZeroBits]; exact fun h => he h.symm),
    finVal_of_zeroBits fmt.expField_negZeroBits fmt.manField_negZeroBits]

theorem sgn_oneBits (h2 : 2 ≤ fmt.exponentBits) : fmt.sgn fmt.oneBits = 0 := by
  have h := fmt.sgn_mk (s := 0) (E := fmt.bias) (M := 0) (by norm_num)
    (bias_lt_pow h2) (Nat.pos_pow_of_pos _ (by norm_num))
  simpa [oneBits] using h

theorem expField_oneBits (h2 : 2 ≤ fmt.exponentBits) :
    fmt.expField fmt.oneBits = fmt.bias := by
  have h := fmt.expField_mk (s := 0) (E := fmt.bias) (M := 0)
    (bias_lt_pow h2) (Nat.pos_pow_of_pos _ (by norm_num))
  simpa [oneBits] using h

theorem manField_oneBits (fmt : FloatFmt) : fmt.manField fmt.oneBits = 0 := by
  have h := fmt.manField_mk (s := 0) (E := fmt.bias) (M := 0)
    (Nat.pos_pow_of_pos _ (by norm_num))
  simpa [oneBits] using h

theorem magQ_oneBits (h2 : 2 ≤ fmt.exponentBits) : fmt.magQ fmt.oneBits = 1 := by
  rw [magQ, sig, expField_oneBits h2, if_neg (bias_pos h2).ne',
    fmt.manField_oneBits, unbiasedExp, expField_oneBits h2]
  have hmax : max fmt.bias 1 = fmt.bias := Nat.max_eq_left (bias_pos h2)
  rw [hmax]
  push_cast
  rw [zpow_sub₀ (by norm_num), zpow_sub₀ (by norm_num)]
  field_simp

theorem isNanBits_oneBits_false (h2 : 2 ≤ fmt.exponentBits) :
    ¬ fmt.isNanBits fmt.oneBits := by
  rw [isNanBits, expField_oneBits h2]
  exact fun h => absurd h.1 (Nat.ne_of_lt (bias_lt_expMax h2))

theorem isInfBits_oneBits_false (h2 : 2 ≤ fmt.exponentBits) :
    ¬ fmt.isInfBits fmt.oneBits := by
  rw [isInfBits, expField_oneBits h2]
  exact fun h => absurd h.1 (Nat.ne_of_lt (bias_lt_expMax h2))

theorem isZeroBits_oneBits_false (h2 : 2 ≤ fmt.exponentBits) :
    ¬ fmt.isZeroBits fmt.oneBits := by
  rw [isZeroBits, expField_oneBits h2]
  exact fun h => absurd h.1 (bias_pos h2).ne'

theorem fdiv_one_posZero (h2 : 2 ≤ fmt.exponentBits) :
    fmt.fdiv fmt.oneBits 0 = fmt.infinityBits := by
  have hem : (0 : ℕ) ≠ fmt.expMax := (expMax_pos h2).ne
  have hbm : fmt.bias ≠ fmt.expMax := (bias_lt_expMax h2).ne
  have hb0 : fmt.bias ≠ 0 := (bias_pos h2).ne.symm
  simp [fdiv, isNanBits, isInfBits, isZeroBits, expField_oneBits h2,
    fmt.manField_oneBits, sgn_oneBits h2, fmt.expField_zeroBits,
    fmt.manField_zeroBits, fmt.sgn_zeroBits, signedInf, hem, hem.symm,
    hbm, hb0]

theorem fdiv_one_negZero (h2 : 2 ≤ fmt.exponentBits) :
    fmt.fdiv fmt.oneBits fmt.negZeroBits = fmt.negInfinityBits := by
  have hem : (0 : ℕ) ≠ fmt.expMax := (expMax_pos h2).ne
  have hbm : fmt.bias ≠ fmt.expMax := (bias_lt_expMax h2).ne
  have hb0 : fmt.bias ≠ 0 := (bias_pos h2).ne.symm
  simp [fdiv, isNanBits, isInfBits, isZeroBits, expField_oneBits h2,
    fmt.manField_oneBits, sgn_oneBits h2, fmt.expField_negZeroBits,
    fmt.manField_negZeroBits, fmt.sgn_negZeroBits, signedInf,
    negInfinityBits, hem, hem.symm, hbm, hb0]

end FloatFmt

/-- Claim C3 helper: consistency of the boolean predicates with `classify`
over every bit pattern, for any format with a nonzero exponent field
range. -/
theorem classify_consistent_aux (fmt : FloatFmt) (he : fmt.expMax ≠ 0) (b : ℕ) :
    (fmt.is_nan b = true ↔ fmt.classify b = FpCategory.Nan) ∧
    (fmt.is_infinite b = true ↔ fmt.classify b = FpCategory.Infinite) ∧
    (fmt.is_normal b = true ↔ fmt.classify b = FpCategory.Normal) ∧
    (fmt.is_finite b = true ↔
      (fmt.classify b ≠ FpCategory.Nan ∧ fmt.classify b ≠ FpCategory.Infinite)) := by
  refine ⟨?_, ?_, ?_, ?_⟩
  · rw [fmt.is_nan_iff, fmt.classify_eq_nan_iff he]
  · rw [fmt.is_infinite_iff, fmt.classify_eq_inf_iff he]
  · unfold FloatFmt.is_normal; simp
  · have hb : fmt.is_finite b = true
        ↔ (¬ (fmt.is_nan b = true) ∧ ¬ (fmt.is_infinite b = true)) := by
      unfold FloatFmt.is_finite; simp
    rw [hb, fmt.is_nan_iff, fmt.is_infinite_iff, ne_eq, ne_eq,
      fmt.classify_eq_nan_iff he, fmt.classify_eq_inf_iff he]

/-- C3: for every bit pattern of either width, `classify` yields exactly one
of the five categories and the boolean predicates agree with it:
`is_nan` iff `Nan`, `is_infinite` iff `Infinite`, `is_normal` iff `Normal`,
and `is_finite` iff the category is neither `Nan` nor `Infinite`. -/
theorem classify_consistent :
    (∀ b : ℕ, f32Fmt.Valid b →
      ((f32Fmt.is_nan b = true ↔ f32Fmt.classify b = FpCategory.Nan) ∧
       (f32Fmt.is_infinite b = true ↔ f32Fmt.classify b = FpCategory.Infinite) ∧
       (f32Fmt.is_normal b = true ↔ f32Fmt.classify b = FpCategory.Normal) ∧
       (f32Fmt.is_finite b = true ↔
         (f32Fmt.classify b ≠ FpCategory.Nan ∧
          f32Fmt.classify b ≠ FpCategory.Infinite)))) ∧
    (∀ b : ℕ, f64Fmt.Valid b →
      ((f64Fmt.is_nan b = true ↔ f64Fmt.classify b = FpCategory.Nan) ∧
       (f64Fmt.is_infinite b = true ↔ f64Fmt.classify b = FpCategory.Infinite) ∧
       (f64Fmt.is_normal b = true ↔ f64Fmt.classify b = FpCategory.Normal) ∧
       (f64Fmt.is_finite b = true ↔
         (f64Fmt.classify b ≠ FpCategory.Nan ∧
          f64Fmt.classify b ≠ FpCategory.Infinite)))) :=
  ⟨fun b _ => classify_consistent_aux f32Fmt (by decide) b,
   fun b _ => classify_consistent_aux f64Fmt (by decide) b⟩

/-- Witness for C3 at the concrete pattern of `1.0`. -/
theorem classify_consistent_witness :
    f32Fmt.Valid 1065353216 ∧ f64Fmt.Valid 4607182418800017408 ∧
    (f64Fmt.is_normal 4607182418800017408 = true
      ↔ f64Fmt.classify 4607182418800017408 = FpCategory.Normal) :=
  ⟨by decide, by decide,
   (classify_consistent.2 4607182418800017408 (by decide)).2.2.1⟩

/-- C4 helper: the predicate values on the two zeros, for any format with
at least two exponent bits. -/
theorem sign_zeros_aux (fmt : FloatFmt) (h2 : 2 ≤ fmt.exponentBits) :
    fmt.is_sign_negative fmt.negZeroBits = true ∧
    fmt.is_sign_positive fmt.negZeroBits = false ∧
    fmt.is_sign_positive 0 = true ∧
    fmt.is_sign_negative 0 = false ∧
    fmt.classify fmt.negZeroBits = FpCategory.Zero ∧
    fmt.feq fmt.negZeroBits 0 = true := by
  have hem : fmt.expMax ≠ 0 := (FloatFmt.expMax_pos h2).ne.symm
  refine ⟨?_, ?_, ?_, ?_, ?_, ?_⟩
  · simp [FloatFmt.is_sign_negative, FloatFmt.flt, FloatFmt.feq,
      fmt.toVal_negZeroBits hem, fmt.toVal_zeroBits hem,
      FloatFmt.fdiv_one_negZero h2, fmt.toVal_negInfinityBits]
  · simp [FloatFmt.is_sign_positive, FloatFmt.fgt, FloatFmt.flt, FloatFmt.feq,
      fmt.toVal_negZeroBits hem, fmt.toVal_zeroBits hem,
      FloatFmt.fdiv_one_negZero h2, fmt.toVal_negInfinityBits,
      fmt.toVal_infinityBits]
  · simp [FloatFmt.is_sign_positive, FloatFmt.fgt, FloatFmt.flt, FloatFmt.feq,
      fmt.toVal_zeroBits hem, FloatFmt.fdiv_one_posZero h2,
      fmt.toVal_infinityBits]
  · simp [FloatFmt.is_sign_negative, FloatFmt.flt, FloatFmt.feq,
      fmt.toVal_zeroBits hem, FloatFmt.fdiv_one_posZero h2,
      fmt.toVal_infinityBits, fmt.toVal_negInfinityBits]
  · simp [FloatFmt.classify, fmt.expField_negZeroBits, fmt.manField_negZeroBits]
  · simp [FloatFmt.feq, fmt.toVal_negZeroBits hem, fmt.toVal_zeroBits hem]

/-- C4: the sign predicates have true sign-bit semantics for the two zeros
of either width — `is_sign_negative (-0.0)`, `is_sign_positive 0.0` are
true, the crossed combinations false, `-0.0` classifies as `Zero` — even
though `-0.0 == 0.0` under IEEE equality. -/
theorem sign_predicates_on_zeros :
    (f32Fmt.is_sign_negative f32Fmt.negZeroBits = true ∧
     f32Fmt.is_sign_positive f32Fmt.negZeroBits = false ∧
     f32Fmt.is_sign_positive 0 = true ∧
     f32Fmt.is_sign_negative 0 = false ∧
     f32Fmt.classify f32Fmt.negZeroBits = FpCategory.Zero ∧
     f32Fmt.feq f32Fmt.negZeroBits 0 = true) ∧
    (f64Fmt.is_sign_negative f64Fmt.negZeroBits = true ∧
     f64Fmt.is_sign_positive f64Fmt.negZeroBits = false ∧
     f64Fmt.is_sign_positive 0 = true ∧
     f64Fmt.is_sign_negative 0 = false ∧
     f64Fmt.classify f64Fmt.negZeroBits = FpCategory.Zero ∧
     f64Fmt.feq f64Fmt.negZeroBits 0 = true) :=
  ⟨sign_zeros_aux f32Fmt (by decide), sign_zeros_aux f64Fmt (by decide)⟩

/-- The `f64` decoder expressed through the format's field extractors. -/
theorem integer_decode_eq (b : ℕ) (hb : f64Fmt.Valid b) :
    integer_decode b =
      ((if f64Fmt.expField b = 0 then f64Fmt.manField b * 2
        else f64Fmt.manField b + 2 ^ 52),
       (f64Fmt.expField b : ℤ) - 1075,
       (if f64Fmt.sgn b = 0 then 1 else -1)) := by
  have hb64 : b < 2 ^ 64 := by
    have hv := hb; unfold FloatFmt.Valid FloatFmt.width at hv
    norm_num [f64Fmt] at hv; exact hv
  have h63 : b / 2 ^ 63 = f64Fmt.sgn b := by
    have hlt : b / 2 ^ 63 < 2 := Nat.div_lt_of_lt_mul (by norm_num at hb64 ⊢; omega)
    have hsgn : f64Fmt.sgn b = b / 2 ^ 63 % 2 := by norm_num [f64Fmt, FloatFmt.sgn]
    rw [hsgn, Nat.mod_eq_of_lt hlt]
  have hef : ∀ x : ℕ, x / 2 ^ 52 % 2 ^ 11 = f64Fmt.expField x := by
    intro x; norm_num [f64Fmt, FloatFmt.expField]
  have hmf : ∀ x : ℕ, x % 2 ^ 52 = f64Fmt.manField x := by
    intro x; norm_num [f64Fmt, FloatFmt.manField]
  simp only [integer_decode, h63, hef, hmf]
  norm_num

/-- `s·2^(ew+mw) + E·2^mw + M` is a valid pattern when the fields are in
range. -/
theorem FloatFmt.valid_mk (fmt : FloatFmt) {s E M : ℕ} (hs : s ≤ 1)
    (hE : E < 2 ^ fmt.exponentBits) (hM : M < 2 ^ fmt.mantissaBits) :
    fmt.Valid (s * 2 ^ (fmt.exponentBits + fmt.mantissaBits)
      + E * 2 ^ fmt.mantissaBits + M) := by
  unfold FloatFmt.Valid FloatFmt.width
  have hlt : E * 2 ^ fmt.mantissaBits + M
      < 2 ^ (fmt.exponentBits + fmt.mantissaBits) := by
    calc E * 2 ^ fmt.mantissaBits + M
        < E * 2 ^ fmt.mantissaBits + 2 ^ fmt.mantissaBits := by omega
      _ = (E + 1) * 2 ^ fmt.mantissaBits := by ring
      _ ≤ 2 ^ fmt.exponentBits * 2 ^ fmt.mantissaBits :=
          Nat.mul_le_mul_right _ (by omega)
      _ = 2 ^ (fmt.exponentBits + fmt.mantissaBits) := (pow_add 2 _ _).symm
  have hp : (0:ℕ) < 2 ^ (fmt.exponentBits + fmt.mantissaBits) :=
    Nat.pos_pow_of_pos _ (by norm_num)
  calc s * 2 ^ (fmt.exponentBits + fmt.mantissaBits)
        + E * 2 ^ fmt.mantissaBits + M
      < (s + 1) * 2 ^ (fmt.exponentBits + fmt.mantissaBits) := by
        have hdist : (s + 1) * 2 ^ (fmt.exponentBits + fmt.mantissaBits)
            = s * 2 ^ (fmt.exponentBits + fmt.mantissaBits)
              + 2 ^ (fmt.exponentBits + fmt.mantissaBits) := by ring
        omega
    _ ≤ 2 * 2 ^ (fmt.exponentBits + fmt.mantissaBits) :=
        Nat.mul_le_mul_right _ (by omega)
    _ = 2 ^ (fmt.exponentBits + fmt.mantissaBits + 1) := by
        rw [pow_succ]; ring

/-- Exact value preservation of the `f32 → f64` widening cast on finite
patterns, together with validity and finiteness of the result. -/
theorem widen32_val (b : ℕ) (hb : f32Fmt.Valid b)
    (hfin : f32Fmt.expField b ≠ f32Fmt.expMax) :
    f64Fmt.Valid (widen32 b) ∧
    f64Fmt.expField (widen32 b) ≠ f64Fmt.expMax ∧
    f64Fmt.finVal (widen32 b) = f32Fmt.finVal b := by
  have hs := f32Fmt.sgn_le b
  have he := f32Fmt.expField_lt b
  have hm := f32Fmt.manField_lt b
  have he8 : f32Fmt.expField b < 256 := by
    have h : (2:ℕ) ^ f32Fmt.exponentBits = 256 := by norm_num [f32Fmt]
    rw [h] at he; exact he
  have hm23 : f32Fmt.manField b < 2 ^ 23 := by
    have h : (2:ℕ) ^ f32Fmt.mantissaBits = 2 ^ 23 := by norm_num [f32Fmt]
    rw [h] at hm; exact hm
  have hfin255 : f32Fmt.expField b ≠ 255 := by
    have h : f32Fmt.expMax = 255 := rfl
    rw [h] at hfin; exact hfin
  have hew : f64Fmt.exponentBits + f64Fmt.mantissaBits = 63 := rfl
  -- abbreviations for the f64 field extraction lemmas
  have hEfield : ∀ s E M : ℕ, s ≤ 1 → E < 2 ^ 11 → M < 2 ^ 52 →
      f64Fmt.sgn (s * 2 ^ 63 + E * 2 ^ 52 + M) = s ∧
      f64Fmt.expField (s * 2 ^ 63 + E * 2 ^ 52 + M) = E ∧
      f64Fmt.manField (s * 2 ^ 63 + E * 2 ^ 52 + M) = M ∧
      f64Fmt.Valid (s * 2 ^ 63 + E * 2 ^ 52 + M) := by
    intro s E M h1 h2 h3
    have hE : E < 2 ^ f64Fmt.exponentBits := h2
    have hM : M < 2 ^ f64Fmt.mantissaBits := h3
    refine ⟨?_, ?_, ?_, ?_⟩
    · have h := f64Fmt.sgn_mk (s := s) (E := E) (M := M) h1 hE hM
      rw [hew] at h; exact h
    · have h := f64Fmt.expField_mk (s := s) (E := E) (M := M) hE hM
      rw [hew] at h; exact h
    · have h := f64Fmt.manField_mk (s := s) (E := E) (M := M) hM
      rw [hew] at h; exact h
    · have h := f64Fmt.valid_mk (s := s) (E := E) (M := M) h1 hE hM
      rw [hew] at h; exact h
  by_cases he0 : f32Fmt.expField b = 0
  · by_cases hm0 : f32Fmt.manField b = 0
    · -- ±0 widens to ±0
      have hw : widen32 b = f32Fmt.sgn b * 2 ^ 63 + 0 * 2 ^ 52 + 0 := by
        unfold widen32
        rw [if_neg hfin255, if_pos he0, if_pos hm0]
        ring
      obtain ⟨h1, h2, h3, h4⟩ := hEfield (f32Fmt.sgn b) 0 0 hs (by norm_num)
        (by norm_num)
      rw [hw]
      refine ⟨h4, by rw [h2]; decide, ?_⟩
      rw [FloatFmt.finVal_of_zeroBits h2 h3, FloatFmt.finVal_of_zeroBits he0 hm0]
    · -- f32 subnormal widens to an f64 normal
      set m := f32Fmt.manField b with hmdef
      set l := Nat.log2 m with hldef
      have hl1 : 2 ^ l ≤ m := Nat.log2_self_le hm0
      have hl2 : m < 2 ^ (l + 1) := Nat.lt_log2_self
      have hl3 : l < 23 := (Nat.log2_lt hm0).mpr hm23
      have hw : widen32 b = f32Fmt.sgn b * 2 ^ 63 + (l + 874) * 2 ^ 52
          + (m - 2 ^ l) * 2 ^ (52 - l) := by
        unfold widen32
        rw [if_neg hfin255, if_pos he0, if_neg hm0]
      have hMlt : (m - 2 ^ l) * 2 ^ (52 - l) < 2 ^ 52 := by
        have hstep : m - 2 ^ l < 2 ^ l := by
          have hps : 2 ^ (l + 1) = 2 ^ l + 2 ^ l := by rw [pow_succ]; ring
          omega
        calc (m - 2 ^ l) * 2 ^ (52 - l) < 2 ^ l * 2 ^ (52 - l) :=
            (Nat.mul_lt_mul_right (Nat.pos_pow_of_pos _ (by norm_num))).mpr hstep
          _ = 2 ^ 52 := by rw [← pow_add]; congr 1; omega
      obtain ⟨h1, h2, h3, h4⟩ := hEfield (f32Fmt.sgn b) (l + 874)
        ((m - 2 ^ l) * 2 ^ (52 - l)) hs (by norm_num; omega) hMlt
      rw [hw]
      refine ⟨h4, by rw [h2]; norm_num [f64Fmt, FloatFmt.expMax]; omega, ?_⟩
      have hnum : (m - 2 ^ l) * 2 ^ (52 - l) + 2 ^ f64Fmt.mantissaBits
          = m * 2 ^ (52 - l) := by
        have h52 : (2:ℕ) ^ f64Fmt.mantissaBits = 2 ^ 52 := by norm_num [f64Fmt]
        rw [h52]
        calc (m - 2 ^ l) * 2 ^ (52 - l) + 2 ^ 52
            = (m - 2 ^ l) * 2 ^ (52 - l) + 2 ^ l * 2 ^ (52 - l) := by
              rw [← pow_add]; congr 2; omega
          _ = (m - 2 ^ l + 2 ^ l) * 2 ^ (52 - l) := by ring
          _ = m * 2 ^ (52 - l) := by rw [Nat.sub_add_cancel hl1]
      have hsig64 : f64Fmt.sig (f32Fmt.sgn b * 2 ^ 63 + (l + 874) * 2 ^ 52
          + (m - 2 ^ l) * 2 ^ (52 - l)) = m * 2 ^ (52 - l) := by
        rw [FloatFmt.sig, h2, if_neg (by omega : ¬ l + 874 = 0), h3, hnum]
      have hue64 : f64Fmt.unbiasedExp (f32Fmt.sgn b * 2 ^ 63 + (l + 874) * 2 ^ 52
          + (m - 2 ^ l) * 2 ^ (52 - l)) = (l : ℤ) - 201 := by
        rw [FloatFmt.unbiasedExp, h2]
        have hmx : (max (l + 874) 1) = l + 874 := by omega
        rw [hmx]
        have hb64 : (f64Fmt.bias : ℤ) = 1023 := by
          norm_num [f64Fmt, FloatFmt.bias]
        have hm64 : (f64Fmt.mantissaBits : ℤ) = 52 := by norm_num [f64Fmt]
        rw [hb64, hm64]; push_cast; ring
      have hsig32 : f32Fmt.sig b = m := by rw [FloatFmt.sig, if_pos he0]
      have hue32 : f32Fmt.unbiasedExp b = -149 := by
        rw [FloatFmt.unbiasedExp, he0]
        have hb32 : (f32Fmt.bias : ℤ) = 127 := by
          norm_num [f32Fmt, FloatFmt.bias]
        have hm32 : (f32Fmt.mantissaBits : ℤ) = 23 := by norm_num [f32Fmt]
        rw [hb32, hm32]; norm_num
      rw [FloatFmt.finVal, FloatFmt.finVal, h1, hsig64, hue64, hsig32, hue32]
      have hzp : ((2:ℚ) ^ ((52 - l : ℕ))) * (2:ℚ) ^ ((l : ℤ) - 201)
          = (2:ℚ) ^ (-149 : ℤ) := by
        rw [← zpow_natCast (2:ℚ) (52 - l),
          ← zpow_add₀ (by norm_num : (2:ℚ) ≠ 0)]
        congr 1
        push_cast [Nat.cast_sub (by omega : l ≤ 52)]
        omega
      push_cast
      calc (if f32Fmt.sgn b = 1 then (-1:ℚ) else 1) * ((m : ℚ) * 2 ^ (52 - l))
            * (2:ℚ) ^ ((l : ℤ) - 201)
          = (if f32Fmt.sgn b = 1 then (-1:ℚ) else 1) * (m : ℚ)
            * ((2:ℚ) ^ ((52 - l : ℕ)) * (2:ℚ) ^ ((l : ℤ) - 201)) := by ring
        _ = (if f32Fmt.sgn b = 1 then (-1:ℚ) else 1) * (m : ℚ)
            * (2:ℚ) ^ (-149 : ℤ) := by rw [hzp]
  · -- f32 normal widens to an f64 normal
    set e := f32Fmt.expField b with hedef
    set m := f32Fmt.manField b with hmdef
    have hw : widen32 b = f32Fmt.sgn b * 2 ^ 63 + (e + 896) * 2 ^ 52
        + m * 2 ^ 29 := by
      unfold widen32
      rw [if_neg hfin255, if_neg he0]
    have hMlt : m * 2 ^ 29 < 2 ^ 52 := by
      calc m * 2 ^ 29 < 2 ^ 23 * 2 ^ 29 :=
          (Nat.mul_lt_mul_right (by norm_num)).mpr hm23
        _ = 2 ^ 52 := by norm_num
    obtain ⟨h1, h2, h3, h4⟩ := hEfield (f32Fmt.sgn b) (e + 896) (m * 2 ^ 29)
      hs (by omega) hMlt
    rw [hw]
    refine ⟨h4, by rw [h2]; norm_num [f64Fmt, FloatFmt.expMax]; omega, ?_⟩
    have hsig64 : f64Fmt.sig (f32Fmt.sgn b * 2 ^ 63 + (e + 896) * 2 ^ 52
        + m * 2 ^ 29) = (m + 2 ^ 23) * 2 ^ 29 := by
      rw [FloatFmt.sig, h2, if_neg (by omega : ¬ e + 896 = 0), h3]
      have h52 : (2:ℕ) ^ f64Fmt.mantissaBits = 2 ^ 52 := by norm_num [f64Fmt]
      rw [h52]; ring
    have hue64 : f64Fmt.unbiasedExp (f32Fmt.sgn b * 2 ^ 63 + (e + 896) * 2 ^ 52
        + m * 2 ^ 29) = (e : ℤ) - 179 := by
      rw [FloatFmt.unbiasedExp, h2]
      have hmx : (max (e + 896) 1) = e + 896 := by omega
      rw [hmx]
      have hb64 : (f64Fmt.bias : ℤ) = 1023 := by norm_num [f64Fmt, FloatFmt.bias]
      have hm64 : (f64Fmt.mantissaBits : ℤ) = 52 := by norm_num [f64Fmt]
      rw [hb64, hm64]; push_cast; ring
    have hsig32 : f32Fmt.sig b = m + 2 ^ 23 := by
      rw [FloatFmt.sig, if_neg he0]
      have h23 : (2:ℕ) ^ f32Fmt.mantissaBits = 2 ^ 23 := by norm_num [f32Fmt]
      rw [h23]
    have hue32 : f32Fmt.unbiasedExp b = (e : ℤ) - 150 := by
      rw [FloatFmt.unbiasedExp]
      have hmx : (max e 1) = e := by omega
      rw [hmx]
      have hb32 : (f32Fmt.bias : ℤ) = 127 := by norm_num [f32Fmt, FloatFmt.bias]
      have hm32 : (f32Fmt.mantissaBits : ℤ) = 23 := by norm_num [f32Fmt]
      rw [hb32, hm32]; ring
    rw [FloatFmt.finVal, FloatFmt.finVal, h1, hsig64, hue64, hsig32, hue32]
    have hzp : ((2:ℚ) ^ (29 : ℕ)) * (2:ℚ) ^ ((e : ℤ) - 179)
        = (2:ℚ) ^ ((e : ℤ) - 150) := by
      rw [← zpow_natCast (2:ℚ) 29, ← zpow_add₀ (by norm_num : (2:ℚ) ≠ 0)]
      congr 1
      ring
    push_cast
    calc (if f32Fmt.sgn b = 1 then (-1:ℚ) else 1)
          * (((m : ℚ) + 2 ^ 23) * 2 ^ 29) * (2:ℚ) ^ ((e : ℤ) - 179)
        = (if f32Fmt.sgn b = 1 then (-1:ℚ) else 1) * ((m : ℚ) + 2 ^ 23)
          * ((2:ℚ) ^ (29 : ℕ) * (2:ℚ) ^ ((e : ℤ) - 179)) := by ring
      _ = (if f32Fmt.sgn b = 1 then (-1:ℚ) else 1) * ((m : ℚ) + 2 ^ 23)
          * (2:ℚ) ^ ((e : ℤ) - 150) := by rw [hzp]

/-- Reconstruction law for the (intended) `f64` decoder on finite
patterns. -/
theorem integer_decode_roundtrip_f64 (b : ℕ) (hb : f64Fmt.Valid b)
    (hfin : f64Fmt.expField b ≠ f64Fmt.expMax) :
    ((integer_decode b).2.2 * (integer_decode b).1 : ℚ)
        * (2 : ℚ) ^ (integer_decode b).2.1
      = f64Fmt.finVal b := by
  have hs := f64Fmt.sgn_le b
  rw [integer_decode_eq b hb, FloatFmt.finVal, FloatFmt.sig, FloatFmt.unbiasedExp]
  have hbias : (f64Fmt.bias : ℤ) = 1023 := by norm_num [f64Fmt, FloatFmt.bias]
  have hmb : (f64Fmt.mantissaBits : ℤ) = 52 := by norm_num [f64Fmt]
  by_cases h0 : f64Fmt.expField b = 0
  · rw [h0]
    have hmax : (max (0 : ℕ) 1) = 1 := rfl
    rw [hmax, hbias, hmb]
    have hzp : (2 : ℚ) ^ ((0 : ℤ) - 1075) * 2 = 2 ^ ((1 : ℤ) - 1023 - 52) := by
      rw [← zpow_add_one₀ (by norm_num : (2 : ℚ) ≠ 0)]; norm_num
    by_cases hsgn : f64Fmt.sgn b = 0
    · rw [if_pos hsgn, if_neg (by omega : ¬ f64Fmt.sgn b = 1)]
      push_cast
      calc (1 : ℚ) * (f64Fmt.manField b * 2) * 2 ^ ((0 : ℤ) - 1075)
          = (f64Fmt.manField b : ℚ) * (2 ^ ((0 : ℤ) - 1075) * 2) := by ring
        _ = 1 * f64Fmt.manField b * 2 ^ ((1 : ℤ) - 1023 - 52) := by rw [hzp]; ring
    · rw [if_neg hsgn, if_pos (by omega : f64Fmt.sgn b = 1)]
      push_cast
      calc (-1 : ℚ) * (f64Fmt.manField b * 2) * 2 ^ ((0 : ℤ) - 1075)
          = -((f64Fmt.manField b : ℚ) * (2 ^ ((0 : ℤ) - 1075) * 2)) := by ring
        _ = -1 * f64Fmt.manField b * 2 ^ ((1 : ℤ) - 1023 - 52) := by rw [hzp]; ring
  · rw [if_neg h0]
    have hmax : (max (f64Fmt.expField b) 1) = f64Fmt.expField b :=
      Nat.max_eq_left (by omega)
    rw [hmax, hbias, hmb]
    have hexp : (f64Fmt.expField b : ℤ) - 1075
        = (f64Fmt.expField b : ℤ) - 1023 - 52 := by ring
    rw [hexp, if_neg h0]
    have hmbn : f64Fmt.mantissaBits = 52 := rfl
    by_cases hsgn : f64Fmt.sgn b = 0
    · rw [if_pos hsgn, if_neg (by omega : ¬ f64Fmt.sgn b = 1)]
      push_cast [hmbn]; ring
    · rw [if_neg hsgn, if_pos (by omega : f64Fmt.sgn b = 1)]
      push_cast [hmbn]; ring

/-! ### Rounding lemmas -/

/-- Round-to-nearest-even lands within half a unit of its argument. -/
theorem rne_bounds (x : ℚ) : x - 1 / 2 ≤ (rne x : ℚ) ∧ (rne x : ℚ) ≤ x + 1 / 2 := by
  have h1 : (⌊x⌋ : ℚ) ≤ x := Int.floor_le x
  have h2 : x < ⌊x⌋ + 1 := Int.lt_floor_add_one x
  simp only [rne]
  split_ifs with ha hb hc <;> constructor <;> push_cast <;> linarith

/-- `qlog2` brackets a positive rational between consecutive powers of
two. -/
theorem qlog2_spec (q : ℚ) (hq : 0 < q) :
    (2 : ℚ) ^ qlog2 q ≤ q ∧ q < (2 : ℚ) ^ (qlog2 q + 1) := by
  set a : ℕ := q.num.natAbs with hadef
  set d : ℕ := q.den with hddef
  have hnum : 0 < q.num := Rat.num_pos.mpr hq
  have ha0 : a ≠ 0 := by
    simp only [hadef]
    exact Int.natAbs_ne_zero.mpr hnum.ne.symm
  have hd0 : d ≠ 0 := q.den_nz
  have hcast : ∀ n : ℕ, ((2 ^ n : ℕ) : ℚ) = (2 : ℚ) ^ (n : ℤ) := by
    intro n; rw [zpow_natCast]; push_cast; ring
  have hsucc : ∀ n : ℕ, ((n : ℤ) + 1) = ((n + 1 : ℕ) : ℤ) := by
    intro n; push_cast; ring
  have haL : (2 : ℚ) ^ (Nat.log2 a : ℤ) ≤ (a : ℚ) := by
    rw [← hcast]; exact_mod_cast Nat.log2_self_le ha0
  have haU : (a : ℚ) < (2 : ℚ) ^ ((Nat.log2 a : ℤ) + 1) := by
    rw [hsucc, ← hcast]; exact_mod_cast Nat.lt_log2_self
  have hdL : (2 : ℚ) ^ (Nat.log2 d : ℤ) ≤ (d : ℚ) := by
    rw [← hcast]; exact_mod_cast Nat.log2_self_le hd0
  have hdU : (d : ℚ) < (2 : ℚ) ^ ((Nat.log2 d : ℤ) + 1) := by
    rw [hsucc, ← hcast]; exact_mod_cast Nat.lt_log2_self
  have hdpos : (0 : ℚ) < d := by
    have hp := Nat.pos_of_ne_zero hd0; exact_mod_cast hp
  have hqad : q * d = a := by
    have h0 : (a : ℤ) = q.num := Int.natAbs_of_nonneg hnum.le
    have h1 : (q.num : ℚ) = (a : ℚ) := by exact_mod_cast h0.symm
    have h2 : q * (q.den : ℚ) = (q.num : ℚ) := Rat.mul_den_eq_num q
    rw [← h1, ← h2]
  set G : ℤ := (Nat.log2 a : ℤ) - (Nat.log2 d : ℤ) with hGdef
  have h2pos : ∀ z : ℤ, (0 : ℚ) < 2 ^ z := fun z => zpow_pos (by norm_num) z
  have hlow : (2 : ℚ) ^ (G - 1) < q := by
    rw [show G - 1 = (Nat.log2 a : ℤ) - ((Nat.log2 d : ℤ) + 1) by ring,
      zpow_sub₀ (by norm_num : (2:ℚ) ≠ 0), div_lt_iff₀ (h2pos _)]
    calc (2 : ℚ) ^ (Nat.log2 a : ℤ) ≤ (a : ℚ) := haL
      _ = q * d := hqad.symm
      _ < q * (2 : ℚ) ^ ((Nat.log2 d : ℤ) + 1) := by
          exact mul_lt_mul_of_pos_left hdU hq
  have hhigh : q < (2 : ℚ) ^ (G + 1) := by
    rw [show G + 1 = ((Nat.log2 a : ℤ) + 1) - (Nat.log2 d : ℤ) by ring,
      zpow_sub₀ (by norm_num : (2:ℚ) ≠ 0), lt_div_iff₀ (h2pos _)]
    calc q * (2 : ℚ) ^ (Nat.log2 d : ℤ) ≤ q * d := by
          exact mul_le_mul_of_nonneg_left hdL hq.le
      _ = (a : ℚ) := hqad
      _ < (2 : ℚ) ^ ((Nat.log2 a : ℤ) + 1) := haU
  simp only [qlog2]
  rw [← hadef, ← hddef, ← hGdef]
  split_ifs with h1 h2
  · exact ⟨hlow.le, by rw [show G - 1 + 1 = G by ring]; exact h1⟩
  · exact absurd h2 (not_le.mpr hhigh)
  · exact ⟨not_lt.mp h1, hhigh⟩

/-- The rounded scaled significand is nonnegative and at most `2^(mw+1)`
whenever the scale is at least the `qlog2`-derived one. -/
theorem rne_scaled (mw : ℕ) (q : ℚ) (hq : 0 < q) (e : ℤ)
    (he : qlog2 q - mw ≤ e) :
    0 ≤ rne (q * (2 : ℚ) ^ (-e)) ∧ rne (q * (2 : ℚ) ^ (-e)) ≤ 2 ^ (mw + 1) := by
  set x : ℚ := q * (2 : ℚ) ^ (-e) with hxdef
  have hxpos : 0 < x := mul_pos hq (zpow_pos (by norm_num) _)
  have hb := rne_bounds x
  have hxU : x < (2 : ℚ) ^ ((mw : ℤ) + 1) := by
    have h1 : q < (2 : ℚ) ^ (qlog2 q + 1) := (qlog2_spec q hq).2
    have h2 : (2 : ℚ) ^ (-e) ≤ (2 : ℚ) ^ ((mw : ℤ) - qlog2 q) := by
      apply zpow_le_zpow_right₀ (by norm_num : (1 : ℚ) ≤ 2)
      omega
    calc x ≤ q * (2 : ℚ) ^ ((mw : ℤ) - qlog2 q) :=
        mul_le_mul_of_nonneg_left h2 hq.le
      _ < (2 : ℚ) ^ (qlog2 q + 1) * (2 : ℚ) ^ ((mw : ℤ) - qlog2 q) :=
        mul_lt_mul_of_pos_right h1 (zpow_pos (by norm_num) _)
      _ = (2 : ℚ) ^ ((mw : ℤ) + 1) := by
        rw [← zpow_add₀ (by norm_num : (2:ℚ) ≠ 0)]; congr 1; ring
  constructor
  · by_contra hneg
    push_neg at hneg
    have h1 : rne x ≤ -1 := by omega
    have h2 : (rne x : ℚ) ≤ -1 := by exact_mod_cast h1
    linarith [hb.1]
  · by_contra hgt
    push_neg at hgt
    have h1 : (2 : ℤ) ^ (mw + 1) + 1 ≤ rne x := by omega
    have h2 : ((2 : ℤ) ^ (mw + 1) : ℚ) + 1 ≤ (rne x : ℚ) := by exact_mod_cast h1
    have h3 : ((2 : ℤ) ^ (mw + 1) : ℚ) = (2 : ℚ) ^ ((mw : ℤ) + 1) := by
      push_cast
      rw [show ((mw : ℤ) + 1) = ((mw + 1 : ℕ) : ℤ) by push_cast; ring,
        zpow_natCast]
    linarith [hb.2]

/-- `encodePos` never exceeds the `+∞` pattern. -/
theorem FloatFmt.encodePos_le_inf (fmt : FloatFmt) (he : 0 < fmt.expMax)
    {m e : ℤ} (hm : m < 2 ^ (fmt.mantissaBits + 1)) :
    fmt.encodePos m e ≤ fmt.infinityBits := by
  unfold FloatFmt.encodePos
  have hpow : (2:ℤ) ^ (fmt.mantissaBits + 1) = 2 ^ fmt.mantissaBits * 2 := by
    rw [pow_succ]
  have hc1 : ((2 ^ fmt.mantissaBits : ℕ) : ℤ) = 2 ^ fmt.mantissaBits := by
    push_cast; ring
  have hp : (0:ℕ) < 2 ^ fmt.mantissaBits := Nat.pos_pow_of_pos _ (by norm_num)
  have hpz : (0:ℤ) < 2 ^ fmt.mantissaBits := by positivity
  split_ifs with h1 h2 h3
  · exact Nat.zero_le _
  · have hlt : m.toNat < 2 ^ fmt.mantissaBits := by omega
    unfold FloatFmt.infinityBits
    calc m.toNat ≤ 2 ^ fmt.mantissaBits := hlt.le
      _ = 1 * 2 ^ fmt.mantissaBits := (Nat.one_mul _).symm
      _ ≤ fmt.expMax * 2 ^ fmt.mantissaBits := Nat.mul_le_mul_right _ he
  · exact Nat.le_refl _
  · have hE : (e + fmt.bias + fmt.mantissaBits).toNat ≤ fmt.expMax - 1 := by
      omega
    have hman : m.toNat - 2 ^ fmt.mantissaBits < 2 ^ fmt.mantissaBits := by
      omega
    unfold FloatFmt.infinityBits
    have hstep : (fmt.expMax - 1) * 2 ^ fmt.mantissaBits + 2 ^ fmt.mantissaBits
        = fmt.expMax * 2 ^ fmt.mantissaBits := by
      have hx : fmt.expMax - 1 + 1 = fmt.expMax := by omega
      calc (fmt.expMax - 1) * 2 ^ fmt.mantissaBits + 2 ^ fmt.mantissaBits
          = (fmt.expMax - 1 + 1) * 2 ^ fmt.mantissaBits := by ring
        _ = fmt.expMax * 2 ^ fmt.mantissaBits := by rw [hx]
    calc (e + fmt.bias + fmt.mantissaBits).toNat * 2 ^ fmt.mantissaBits
          + (m.toNat - 2 ^ fmt.mantissaBits)
        ≤ (fmt.expMax - 1) * 2 ^ fmt.mantissaBits
          + (m.toNat - 2 ^ fmt.mantissaBits) :=
          Nat.add_le_add_right (Nat.mul_le_mul_right _ hE) _
      _ ≤ (fmt.expMax - 1) * 2 ^ fmt.mantissaBits + 2 ^ fmt.mantissaBits :=
          Nat.add_le_add_left hman.le _
      _ = fmt.expMax * 2 ^ fmt.mantissaBits := hstep

/-- `roundPos` never exceeds the `+∞` pattern; in particular its sign bit
is clear. -/
theorem FloatFmt.roundPos_le_inf (fmt : FloatFmt) (he : 0 < fmt.expMax)
    (q : ℚ) : fmt.roundPos q ≤ fmt.infinityBits := by
  simp only [FloatFmt.roundPos]
  rcases le_or_lt q 0 with hq | hq
  · have hx : q * (2:ℚ) ^ (-(max fmt.minExp (qlog2 q - fmt.mantissaBits))) ≤ 0 :=
      mul_nonpos_of_nonpos_of_nonneg hq (zpow_pos (by norm_num) _).le
    have hb := (rne_bounds (q * (2:ℚ) ^ (-(max fmt.minExp
      (qlog2 q - fmt.mantissaBits))))).2
    have hm0 : rne (q * (2:ℚ) ^ (-(max fmt.minExp
        (qlog2 q - fmt.mantissaBits)))) ≤ 0 := by
      by_contra hgt
      push_neg at hgt
      have h1 : (1:ℤ) ≤ rne (q * (2:ℚ) ^ (-(max fmt.minExp
        (qlog2 q - fmt.mantissaBits)))) := hgt
      have h1q : (1:ℚ) ≤ (rne (q * (2:ℚ) ^ (-(max fmt.minExp
        (qlog2 q - fmt.mantissaBits)))) : ℚ) := by exact_mod_cast h1
      linarith
    have hpz : (0:ℤ) < 2 ^ (fmt.mantissaBits + 1) := by positivity
    rw [if_neg (by omega)]
    exact fmt.encodePos_le_inf he (by omega)
  · have hr := rne_scaled fmt.mantissaBits q hq
      (max fmt.minExp (qlog2 q - fmt.mantissaBits)) (le_max_right _ _)
    split_ifs with hcar
    · exact fmt.encodePos_le_inf he (by
        have hp : (0:ℤ) < 2 ^ fmt.mantissaBits := by positivity
        have hpow : (2:ℤ) ^ (fmt.mantissaBits + 1) = 2 ^ fmt.mantissaBits * 2 := by
          rw [pow_succ]
        omega)
    · exact fmt.encodePos_le_inf he (by omega)

/-- `infinityBits` (and anything at most it) has a clear sign bit. -/
theorem FloatFmt.infinityBits_lt (fmt : FloatFmt) :
    fmt.infinityBits < 2 ^ (fmt.exponentBits + fmt.mantissaBits) := by
  unfold FloatFmt.infinityBits
  calc fmt.expMax * 2 ^ fmt.mantissaBits
      < 2 ^ fmt.exponentBits * 2 ^ fmt.mantissaBits :=
        (Nat.mul_lt_mul_right (Nat.pos_pow_of_pos _ (by norm_num))).mpr
          fmt.expMax_lt
    _ = 2 ^ (fmt.exponentBits + fmt.mantissaBits) := (pow_add 2 _ _).symm

/-- Bit patterns below the sign bit have `sgn = 0`. -/
theorem FloatFmt.sgn_of_lt (fmt : FloatFmt) {b : ℕ}
    (hb : b < 2 ^ (fmt.exponentBits + fmt.mantissaBits)) : fmt.sgn b = 0 := by
  unfold FloatFmt.sgn
  rw [Nat.div_eq_of_lt hb]

namespace FloatFmt

variable {fmt : FloatFmt} {b : ℕ}

theorem expField_nanBits (hmw : 1 ≤ fmt.mantissaBits) :
    fmt.expField fmt.nanBits = fmt.expMax := by
  have h := fmt.expField_mk (s := 0) (E := fmt.expMax) (M := 2 ^ (fmt.mantissaBits - 1))
    fmt.expMax_lt (Nat.pow_lt_pow_right (by norm_num) (by omega))
  simpa [nanBits, infinityBits] using h

theorem manField_nanBits (hmw : 1 ≤ fmt.mantissaBits) :
    fmt.manField fmt.nanBits = 2 ^ (fmt.mantissaBits - 1) := by
  have h := fmt.manField_mk (s := 0) (E := fmt.expMax) (M := 2 ^ (fmt.mantissaBits - 1))
    (Nat.pow_lt_pow_right (by norm_num) (by omega))
  simpa [nanBits, infinityBits] using h

theorem toVal_nanBits (hmw : 1 ≤ fmt.mantissaBits) :
    fmt.toVal fmt.nanBits = .nan :=
  toVal_nan (expField_nanBits hmw)
    (by rw [manField_nanBits hmw]; positivity)

theorem isNanBits_nanBits (hmw : 1 ≤ fmt.mantissaBits) :
    fmt.isNanBits fmt.nanBits :=
  ⟨expField_nanBits hmw, by rw [manField_nanBits hmw]; positivity⟩

theorem sig_eq_zero_iff (fmt : FloatFmt) (b : ℕ) :
    fmt.sig b = 0 ↔ fmt.isZeroBits b := by
  unfold sig isZeroBits
  have hp : (0:ℕ) < 2 ^ fmt.mantissaBits := Nat.pos_pow_of_pos _ (by norm_num)
  split_ifs with h <;> simp [h]

theorem magQ_pos (hnz : ¬ fmt.isZeroBits b) : 0 < fmt.magQ b := by
  unfold magQ
  have hsig : fmt.sig b ≠ 0 := fun h => hnz ((fmt.sig_eq_zero_iff b).mp h)
  have hs : (0:ℚ) < fmt.sig b := by
    have hn : 0 < fmt.sig b := Nat.pos_of_ne_zero hsig
    exact_mod_cast hn
  exact mul_pos hs (zpow_pos (by norm_num) _)

theorem finVal_pos (hs : fmt.sgn b = 0) (hnz : ¬ fmt.isZeroBits b) :
    0 < fmt.finVal b := by
  have h := magQ_pos hnz
  unfold finVal
  unfold magQ at h
  rw [if_neg (by omega : ¬ fmt.sgn b = 1)]
  calc (0:ℚ) < fmt.sig b * (2:ℚ) ^ fmt.unbiasedExp b := h
    _ = 1 * fmt.sig b * (2:ℚ) ^ fmt.unbiasedExp b := by ring

theorem finVal_neg (hs : fmt.sgn b = 1) (hnz : ¬ fmt.isZeroBits b) :
    fmt.finVal b < 0 := by
  have h := magQ_pos hnz
  unfold finVal
  unfold magQ at h
  rw [if_pos hs]
  have heq : (-1:ℚ) * fmt.sig b * (2:ℚ) ^ fmt.unbiasedExp b
      = -(fmt.sig b * (2:ℚ) ^ fmt.unbiasedExp b) := by ring
  rw [heq]
  exact neg_neg_of_pos h

theorem sgn_signBit_add {r : ℕ}
    (hr : r < 2 ^ (fmt.exponentBits + fmt.mantissaBits)) :
    fmt.sgn (2 ^ (fmt.exponentBits + fmt.mantissaBits) + r) = 1 := by
  unfold sgn
  have hd : (2 ^ (fmt.exponentBits + fmt.mantissaBits) + r)
      / 2 ^ (fmt.exponentBits + fmt.mantissaBits) = 1 := by
    rw [Nat.add_comm,
      Nat.add_div_right _ (Nat.pos_pow_of_pos _ (by norm_num)),
      Nat.div_eq_of_lt hr]
  rw [hd]

/-- `feq` against `-∞` is false for any pattern with a clear sign bit. -/
theorem feq_negInf_of_sgn0 (hs : fmt.sgn b = 0) :
    fmt.feq b fmt.negInfinityBits = false := by
  unfold feq
  rw [fmt.toVal_negInfinityBits]
  unfold toVal
  split_ifs with h1 h2 <;> simp [hs]

/-- `feq` against `+∞` is false for any pattern with a set sign bit. -/
theorem feq_posInf_of_sgn1 (hs : fmt.sgn b = 1) :
    fmt.feq b fmt.infinityBits = false := by
  unfold feq
  rw [fmt.toVal_infinityBits]
  unfold toVal
  split_ifs with h1 h2 <;> simp [hs]

theorem fdiv_one_nanArg (hbn : fmt.isNanBits b) :
    fmt.fdiv fmt.oneBits b = fmt.nanBits := by
  unfold fdiv
  rw [if_pos (Or.inr hbn)]

theorem fdiv_one_posInf (h2 : 2 ≤ fmt.exponentBits) :
    fmt.fdiv fmt.oneBits fmt.infinityBits = 0 := by
  have hem : (0 : ℕ) ≠ fmt.expMax := (expMax_pos h2).ne
  have hbm : fmt.bias ≠ fmt.expMax := (bias_lt_expMax h2).ne
  have hb0 : fmt.bias ≠ 0 := (bias_pos h2).ne.symm
  simp [fdiv, isNanBits, isInfBits, isZeroBits, expField_oneBits h2,
    fmt.manField_oneBits, sgn_oneBits h2, fmt.expField_infinityBits,
    fmt.manField_infinityBits, fmt.sgn_infinityBits, signedZero,
    hem, hem.symm, hbm, hb0]

theorem fdiv_one_negInf (h2 : 2 ≤ fmt.exponentBits) :
    fmt.fdiv fmt.oneBits fmt.negInfinityBits = fmt.negZeroBits := by
  have hem : (0 : ℕ) ≠ fmt.expMax := (expMax_pos h2).ne
  have hbm : fmt.bias ≠ fmt.expMax := (bias_lt_expMax h2).ne
  have hb0 : fmt.bias ≠ 0 := (bias_pos h2).ne.symm
  simp [fdiv, isNanBits, isInfBits, isZeroBits, expField_oneBits h2,
    fmt.manField_oneBits, sgn_oneBits h2, fmt.expField_negInfinityBits,
    fmt.manField_negInfinityBits, fmt.sgn_negInfinityBits, signedZero,
    negZeroBits, hem, hem.symm, hbm, hb0]

theorem fdiv_one_finite (h2 : 2 ≤ fmt.exponentBits)
    (hfe : fmt.expField b ≠ fmt.expMax) (hnz : ¬ fmt.isZeroBits b) :
    fmt.fdiv fmt.oneBits b
      = fmt.signedZero (fmt.sgn b)
        + fmt.roundPos (fmt.magQ fmt.oneBits / fmt.magQ b) := by
  have hbm : fmt.bias ≠ fmt.expMax := (bias_lt_expMax h2).ne
  have hb0 : fmt.bias ≠ 0 := (bias_pos h2).ne.symm
  have hsb : fmt.sgn b ≤ 1 := fmt.sgn_le b
  have hbnan : ¬ fmt.isNanBits b := fun h => hfe h.1
  have hbinf : ¬ fmt.isInfBits b := fun h => hfe h.1
  have hmod : (fmt.sgn fmt.oneBits + fmt.sgn b) % 2 = fmt.sgn b := by
    rw [sgn_oneBits h2]; omega
  unfold fdiv
  rw [if_neg, if_neg (isInfBits_oneBits_false h2), if_neg hbinf, if_neg hnz,
    if_neg (isZeroBits_oneBits_false h2), hmod]
  rintro (h | h)
  · exact isNanBits_oneBits_false h2 h
  · exact hbnan h

end FloatFmt

namespace FloatFmt

variable {fmt : FloatFmt} {b r : ℕ}

theorem expField_of_lt (hb : b < 2 ^ fmt.mantissaBits) : fmt.expField b = 0 := by
  unfold expField
  rw [Nat.div_eq_of_lt hb, Nat.zero_mod]

theorem manField_of_lt (hb : b < 2 ^ fmt.mantissaBits) : fmt.manField b = b :=
  Nat.mod_eq_of_lt hb

theorem expField_signBit_add (fmt : FloatFmt) (r : ℕ) :
    fmt.expField (2 ^ (fmt.exponentBits + fmt.mantissaBits) + r)
      = fmt.expField r := by
  unfold expField
  rw [Nat.add_comm, pow_add, Nat.mul_comm,
    Nat.add_mul_div_left _ _ (Nat.pos_pow_of_pos _ (by norm_num)),
    Nat.add_mod_right]

theorem manField_signBit_add (fmt : FloatFmt) (r : ℕ) :
    fmt.manField (2 ^ (fmt.exponentBits + fmt.mantissaBits) + r)
      = fmt.manField r := by
  unfold manField
  rw [Nat.add_comm, pow_add, Nat.mul_comm, Nat.add_mul_mod_self_left]

theorem finVal_signBit_add (hr : r < 2 ^ (fmt.exponentBits + fmt.mantissaBits)) :
    fmt.finVal (2 ^ (fmt.exponentBits + fmt.mantissaBits) + r)
      = - fmt.finVal r := by
  unfold finVal sig unbiasedExp
  rw [fmt.expField_signBit_add r, fmt.manField_signBit_add r,
    sgn_signBit_add hr, fmt.sgn_of_lt hr]
  norm_num
  split_ifs <;> ring

/-- Field extraction for sign-clear composite patterns. -/
theorem fields_of_mk0 {E M : ℕ} (hE : E < 2 ^ fmt.exponentBits)
    (hM : M < 2 ^ fmt.mantissaBits) :
    fmt.expField (E * 2 ^ fmt.mantissaBits + M) = E ∧
    fmt.manField (E * 2 ^ fmt.mantissaBits + M) = M ∧
    fmt.sgn (E * 2 ^ fmt.mantissaBits + M) = 0 := by
  have h1 := fmt.expField_mk (s := 0) (E := E) (M := M) hE hM
  have h2 := fmt.manField_mk (s := 0) (E := E) (M := M) hM
  have h3 := fmt.sgn_mk (s := 0) (E := E) (M := M) (by norm_num) hE hM
  rw [Nat.zero_mul, Nat.zero_add] at h1 h2 h3
  exact ⟨h1, h2, h3⟩

/-- `roundPos` of a value in `[2^minExp, 1)` is a finite, nonzero,
sign-clear pattern. -/
theorem roundPos_small (h2 : 2 ≤ fmt.exponentBits) {q : ℚ}
    (hq1 : (2:ℚ) ^ fmt.minExp ≤ q) (hq2 : q < 1) :
    fmt.expField (fmt.roundPos q) ≠ fmt.expMax ∧
    ¬ fmt.isZeroBits (fmt.roundPos q) ∧ fmt.sgn (fmt.roundPos q) = 0 := by
  have hqpos : 0 < q := lt_of_lt_of_le (zpow_pos (by norm_num) _) hq1
  set e : ℤ := max fmt.minExp (qlog2 q - fmt.mantissaBits) with hedef
  have hrb := rne_scaled fmt.mantissaBits q hqpos e (by rw [hedef]; exact le_max_right _ _)
  have hql : qlog2 q < 0 := by
    by_contra hge
    push_neg at hge
    have h1 : (1:ℚ) ≤ (2:ℚ) ^ qlog2 q := by
      calc (1:ℚ) = (2:ℚ) ^ (0:ℤ) := by norm_num
        _ ≤ (2:ℚ) ^ qlog2 q := zpow_le_zpow_right₀ (by norm_num) hge
    linarith [(qlog2_spec q hqpos).1]
  have hbias1 : 1 ≤ fmt.bias := bias_pos h2
  have hbe : fmt.bias + 1 < fmt.expMax := by
    unfold bias expMax
    have hsplit : 2 ^ fmt.exponentBits = 2 * 2 ^ (fmt.exponentBits - 1) := by
      rw [← pow_succ']
      congr 1
      omega
    have hp : 2 ≤ 2 ^ (fmt.exponentBits - 1) := by
      calc (2:ℕ) = 2 ^ 1 := rfl
        _ ≤ 2 ^ (fmt.exponentBits - 1) :=
            Nat.pow_le_pow_right (by norm_num) (by omega)
    omega
  have hmE : 1 ≤ e + fmt.bias + fmt.mantissaBits := by
    have h : fmt.minExp ≤ e := by rw [hedef]; exact le_max_left _ _
    unfold minExp at h
    omega
  have hEup : e + fmt.bias + fmt.mantissaBits ≤ fmt.bias := by
    rcases max_choice fmt.minExp (qlog2 q - fmt.mantissaBits) with hc | hc
    · rw [hedef, hc]; unfold minExp; omega
    · rw [hedef, hc]; omega
  have hx1 : 1 ≤ q * (2:ℚ) ^ (-e) := by
    rcases max_choice fmt.minExp (qlog2 q - fmt.mantissaBits) with hc | hc
    · rw [hedef, hc]
      calc (1:ℚ) = (2:ℚ) ^ fmt.minExp * (2:ℚ) ^ (-fmt.minExp) := by
            rw [← zpow_add₀ (by norm_num : (2:ℚ) ≠ 0)]; norm_num
        _ ≤ q * (2:ℚ) ^ (-fmt.minExp) :=
            mul_le_mul_of_nonneg_right hq1 (zpow_pos (by norm_num) _).le
    · rw [hedef, hc]
      have h1 : (2:ℚ) ^ qlog2 q ≤ q := (qlog2_spec q hqpos).1
      calc (1:ℚ) = (2:ℚ) ^ (0:ℤ) := by norm_num
        _ ≤ (2:ℚ) ^ (fmt.mantissaBits : ℤ) :=
            zpow_le_zpow_right₀ (by norm_num) (by positivity)
        _ = (2:ℚ) ^ qlog2 q * (2:ℚ) ^ (-(qlog2 q - fmt.mantissaBits)) := by
            rw [← zpow_add₀ (by norm_num : (2:ℚ) ≠ 0)]; congr 1; ring
        _ ≤ q * (2:ℚ) ^ (-(qlog2 q - fmt.mantissaBits)) :=
            mul_le_mul_of_nonneg_right h1 (zpow_pos (by norm_num) _).le
  have hm1 : 1 ≤ rne (q * (2:ℚ) ^ (-e)) := by
    have hbnd := (rne_bounds (q * (2:ℚ) ^ (-e))).1
    by_contra hlt
    push_neg at hlt
    have h0 : rne (q * (2:ℚ) ^ (-e)) ≤ 0 := by omega
    have h0q : ((rne (q * (2:ℚ) ^ (-e)) : ℤ) : ℚ) ≤ 0 := by exact_mod_cast h0
    linarith
  have hc1 : ((2 ^ fmt.mantissaBits : ℕ) : ℤ) = 2 ^ fmt.mantissaBits := by
    push_cast; ring
  have hcm : ((fmt.expMax : ℕ) : ℤ) = (fmt.expMax : ℤ) := rfl
  have hmw2 : (2:ℕ) ^ fmt.mantissaBits ≤ 2 ^ (fmt.exponentBits + fmt.mantissaBits) :=
    Nat.pow_le_pow_right (by norm_num) (by omega)
  have hemax2 : fmt.expMax < 2 ^ fmt.exponentBits := fmt.expMax_lt
  simp only [roundPos]
  rw [← hedef]
  split_ifs with hcar
  · unfold encodePos
    have hpz : (0:ℤ) < 2 ^ fmt.mantissaBits := by positivity
    have hEok : ¬ ((fmt.expMax : ℤ) ≤ e + 1 + fmt.bias + fmt.mantissaBits) := by
      push_neg
      have hcast : ((fmt.bias : ℕ) : ℤ) + 1 < ((fmt.expMax : ℕ) : ℤ) := by
        exact_mod_cast hbe
      omega
    rw [if_neg (by positivity), if_neg (by omega), if_neg hEok]
    have h2n : ((2:ℤ) ^ fmt.mantissaBits).toNat = 2 ^ fmt.mantissaBits := by
      rw [show ((2:ℤ) ^ fmt.mantissaBits) = ((2 ^ fmt.mantissaBits : ℕ) : ℤ) by
        push_cast; ring, Int.toNat_natCast]
    rw [h2n, Nat.sub_self, Nat.add_zero]
    set EN := (e + 1 + fmt.bias + fmt.mantissaBits).toNat with hENdef
    have hEN1 : 1 ≤ EN := by rw [hENdef]; omega
    have hENlt : EN < 2 ^ fmt.exponentBits := by
      have hup : EN ≤ fmt.bias + 1 := by rw [hENdef]; omega
      omega
    have hENem : EN < fmt.expMax := by
      have hup : EN ≤ fmt.bias + 1 := by rw [hENdef]; omega
      omega
    have hM0 : (0:ℕ) < 2 ^ fmt.mantissaBits := Nat.pos_pow_of_pos _ (by norm_num)
    obtain ⟨hf1, hf2, hf3⟩ := fields_of_mk0 (E := EN) (M := 0)
      hENlt hM0
    rw [Nat.add_zero] at hf1 hf2 hf3
    refine ⟨?_, ?_, ?_⟩
    · rw [hf1]; omega
    · intro hz
      unfold isZeroBits at hz
      rw [hf1] at hz
      omega
    · exact hf3
  · unfold encodePos
    rw [if_neg (by omega)]
    by_cases hsmall : rne (q * (2:ℚ) ^ (-e)) < 2 ^ fmt.mantissaBits
    · rw [if_pos hsmall]
      have hlt : (rne (q * (2:ℚ) ^ (-e))).toNat < 2 ^ fmt.mantissaBits := by
        omega
      have hpos1 : 1 ≤ (rne (q * (2:ℚ) ^ (-e))).toNat := by omega
      refine ⟨?_, ?_, ?_⟩
      · rw [expField_of_lt hlt]
        exact (expMax_pos h2).ne
      · intro hz
        unfold isZeroBits at hz
        rw [manField_of_lt hlt] at hz
        omega
      · exact fmt.sgn_of_lt (lt_of_lt_of_le hlt hmw2)
    · rw [if_neg hsmall]
      have hm0U : rne (q * (2:ℚ) ^ (-e)) < 2 ^ (fmt.mantissaBits + 1) := by
        rcases lt_or_eq_of_le hrb.2 with h | h
        · exact h
        · exact absurd h hcar
      have hEok : ¬ ((fmt.expMax : ℤ) ≤ e + fmt.bias + fmt.mantissaBits) := by
        push_neg
        have hcast : ((fmt.bias : ℕ) : ℤ) + 1 < ((fmt.expMax : ℕ) : ℤ) := by
          exact_mod_cast hbe
        omega
      rw [if_neg hEok]
      set EN := (e + fmt.bias + fmt.mantissaBits).toNat with hENdef
      have hEN1 : 1 ≤ EN := by rw [hENdef]; omega
      have hENlt : EN < 2 ^ fmt.exponentBits := by
        have hup : EN ≤ fmt.bias := by rw [hENdef]; omega
        omega
      have hENem : EN < fmt.expMax := by
        have hup : EN ≤ fmt.bias := by rw [hENdef]; omega
        omega
      have hMlt : (rne (q * (2:ℚ) ^ (-e))).toNat - 2 ^ fmt.mantissaBits
          < 2 ^ fmt.mantissaBits := by
        have hpow : (2:ℤ) ^ (fmt.mantissaBits + 1) = 2 ^ fmt.mantissaBits * 2 := by
          rw [pow_succ]
        have hc2 : ((2 ^ (fmt.mantissaBits + 1) : ℕ) : ℤ)
            = 2 ^ (fmt.mantissaBits + 1) := by push_cast; ring
        omega
      obtain ⟨hf1, hf2, hf3⟩ := fields_of_mk0 (E := EN)
        (M := (rne (q * (2:ℚ) ^ (-e))).toNat - 2 ^ fmt.mantissaBits) hENlt hMlt
      refine ⟨?_, ?_, ?_⟩
      · rw [hf1]; omega
      · intro hz
        unfold isZeroBits at hz
        rw [hf1] at hz
        omega
      · exact hf3

end FloatFmt

namespace FloatFmt

variable {fmt : FloatFmt} {b : ℕ}

theorem sig_lt : fmt.sig b < 2 ^ (fmt.mantissaBits + 1) := by
  have hman := fmt.manField_lt b
  have hsplit : (2:ℕ) ^ (fmt.mantissaBits + 1) = 2 ^ fmt.mantissaBits * 2 := by
    rw [pow_succ]
  unfold sig
  split_ifs <;> omega

theorem finVal_eq_sgn_magQ (fmt : FloatFmt) (b : ℕ) :
    fmt.finVal b = (if fmt.sgn b = 1 then (-1:ℚ) else 1) * fmt.magQ b := by
  unfold finVal magQ
  ring

theorem magQ_nonneg (fmt : FloatFmt) (b : ℕ) : 0 ≤ fmt.magQ b := by
  unfold magQ
  positivity

/-- Values with exponent field below the bias have magnitude below one. -/
theorem magQ_lt_one (h2 : 2 ≤ fmt.exponentBits)
    (hE : fmt.expField b < fmt.bias) : fmt.magQ b < 1 := by
  have hbias1 : 1 ≤ fmt.bias := bias_pos h2
  unfold magQ unbiasedExp
  by_cases hE0 : fmt.expField b = 0
  · rw [hE0]
    have hmax : max (0:ℕ) 1 = 1 := rfl
    rw [hmax]
    have hsig : (fmt.sig b : ℚ) < (2:ℚ) ^ (fmt.mantissaBits : ℤ) := by
      have h : fmt.sig b < 2 ^ fmt.mantissaBits := by
        unfold sig
        rw [if_pos hE0]
        exact fmt.manField_lt b
      calc (fmt.sig b : ℚ) < ((2 ^ fmt.mantissaBits : ℕ) : ℚ) := by exact_mod_cast h
        _ = (2:ℚ) ^ (fmt.mantissaBits : ℤ) := by
            rw [zpow_natCast]; push_cast; ring
    calc (fmt.sig b : ℚ) * (2:ℚ) ^ (((1:ℕ) : ℤ) - fmt.bias - fmt.mantissaBits)
        < (2:ℚ) ^ (fmt.mantissaBits : ℤ)
          * (2:ℚ) ^ (((1:ℕ) : ℤ) - fmt.bias - fmt.mantissaBits) :=
          mul_lt_mul_of_pos_right hsig (zpow_pos (by norm_num) _)
      _ = (2:ℚ) ^ ((1 : ℤ) - fmt.bias) := by
          rw [← zpow_add₀ (by norm_num : (2:ℚ) ≠ 0)]; congr 1; push_cast; ring
      _ ≤ 1 := zpow_le_one_of_nonpos₀ (by norm_num) (by
          have hb1 : (1:ℤ) ≤ (fmt.bias : ℤ) := by exact_mod_cast hbias1
          omega)
  · have hmax : max (fmt.expField b) 1 = fmt.expField b := by omega
    rw [hmax]
    have hsig : (fmt.sig b : ℚ) < (2:ℚ) ^ ((fmt.mantissaBits : ℤ) + 1) := by
      have h : fmt.sig b < 2 ^ (fmt.mantissaBits + 1) := sig_lt
      calc (fmt.sig b : ℚ) < ((2 ^ (fmt.mantissaBits + 1) : ℕ) : ℚ) := by
            exact_mod_cast h
        _ = (2:ℚ) ^ ((fmt.mantissaBits : ℤ) + 1) := by
            rw [show ((fmt.mantissaBits : ℤ) + 1) = ((fmt.mantissaBits + 1 : ℕ) : ℤ)
              by push_cast; ring, zpow_natCast]
            push_cast; ring
    calc (fmt.sig b : ℚ)
          * (2:ℚ) ^ ((fmt.expField b : ℤ) - fmt.bias - fmt.mantissaBits)
        < (2:ℚ) ^ ((fmt.mantissaBits : ℤ) + 1)
          * (2:ℚ) ^ ((fmt.expField b : ℤ) - fmt.bias - fmt.mantissaBits) :=
          mul_lt_mul_of_pos_right hsig (zpow_pos (by norm_num) _)
      _ = (2:ℚ) ^ ((fmt.expField b : ℤ) - fmt.bias + 1) := by
          rw [← zpow_add₀ (by norm_num : (2:ℚ) ≠ 0)]; congr 1; ring
      _ ≤ 1 := zpow_le_one_of_nonpos₀ (by norm_num) (by
          have hlt : (fmt.expField b : ℤ) < (fmt.bias : ℤ) := by exact_mod_cast hE
          omega)

/-- Every finite value is an integer multiple of `2 ^ minExp`. -/
theorem finVal_scaled_int (fmt : FloatFmt) (b : ℕ) :
    ∃ z : ℤ, fmt.finVal b * (2:ℚ) ^ (-fmt.minExp) = (z : ℚ) := by
  refine ⟨(if fmt.sgn b = 1 then (-1:ℤ) else 1) * fmt.sig b
    * 2 ^ (max (fmt.expField b) 1 - 1), ?_⟩
  unfold finVal unbiasedExp minExp
  have hzp : (2:ℚ) ^ ((max (fmt.expField b) 1 : ℕ) - (fmt.bias : ℤ) - fmt.mantissaBits)
      * (2:ℚ) ^ (-(1 - (fmt.bias : ℤ) - fmt.mantissaBits))
      = (2:ℚ) ^ ((max (fmt.expField b) 1 - 1 : ℕ) : ℤ) := by
    rw [← zpow_add₀ (by norm_num : (2:ℚ) ≠ 0)]
    congr 1
    have h1 : 1 ≤ max (fmt.expField b) 1 := le_max_right _ _
    push_cast [Nat.cast_sub h1]
    ring
  calc (if fmt.sgn b = 1 then (-1:ℚ) else 1) * fmt.sig b
        * (2:ℚ) ^ ((max (fmt.expField b) 1 : ℕ) - (fmt.bias : ℤ) - fmt.mantissaBits)
        * (2:ℚ) ^ (-(1 - (fmt.bias : ℤ) - fmt.mantissaBits))
      = (if fmt.sgn b = 1 then (-1:ℚ) else 1) * fmt.sig b
        * ((2:ℚ) ^ ((max (fmt.expField b) 1 : ℕ) - (fmt.bias : ℤ) - fmt.mantissaBits)
          * (2:ℚ) ^ (-(1 - (fmt.bias : ℤ) - fmt.mantissaBits))) := by ring
    _ = (if fmt.sgn b = 1 then (-1:ℚ) else 1) * fmt.sig b
        * (2:ℚ) ^ ((max (fmt.expField b) 1 - 1 : ℕ) : ℤ) := by rw [hzp]
    _ = ((if fmt.sgn b = 1 then (-1:ℤ) else 1) * fmt.sig b
        * 2 ^ (max (fmt.expField b) 1 - 1) : ℤ) := by
        rw [zpow_natCast]
        push_cast
        split_ifs <;> ring

/-- Behaviour of the modelled `trunc` on finite patterns: the result is
finite with an integer value, the discarded part is a multiple of
`2 ^ minExp`, and it lies in `[0,1)` below the magnitude, on the side of
zero given by the sign. -/
theorem trunc_spec (h2 : 2 ≤ fmt.exponentBits) (hb : fmt.Valid b)
    (hfe : fmt.expField b ≠ fmt.expMax) :
    fmt.expField (fmt.trunc b) ≠ fmt.expMax ∧
    (∃ n : ℤ, fmt.finVal (fmt.trunc b) = (n : ℚ)) ∧
    (∃ z : ℤ, (fmt.finVal b - fmt.finVal (fmt.trunc b)) * (2:ℚ) ^ (-fmt.minExp)
      = (z : ℚ)) ∧
    (fmt.sgn b = 0 → 0 ≤ fmt.finVal b - fmt.finVal (fmt.trunc b) ∧
      fmt.finVal b - fmt.finVal (fmt.trunc b) < 1) ∧
    (fmt.sgn b = 1 → -1 < fmt.finVal b - fmt.finVal (fmt.trunc b) ∧
      fmt.finVal b - fmt.finVal (fmt.trunc b) ≤ 0) := by
  have hsb := fmt.sgn_le b
  have hman := fmt.manField_lt b
  have hbias1 : 1 ≤ fmt.bias := bias_pos h2
  have hemax1 : 0 < fmt.expMax := expMax_pos h2
  have hElt := fmt.expField_lt b
  unfold trunc
  rw [if_neg hfe]
  split_ifs with hA hB
  · -- |x| < 1: truncates to a signed zero
    have hsz : fmt.signedZero (fmt.sgn b)
        = fmt.sgn b * 2 ^ (fmt.exponentBits + fmt.mantissaBits)
          + 0 * 2 ^ fmt.mantissaBits + 0 := by
      unfold signedZero; ring
    have hp0 : (0:ℕ) < 2 ^ fmt.exponentBits := Nat.pos_pow_of_pos _ (by norm_num)
    have hp1 : (0:ℕ) < 2 ^ fmt.mantissaBits := Nat.pos_pow_of_pos _ (by norm_num)
    have hfE : fmt.expField (fmt.signedZero (fmt.sgn b)) = 0 := by
      rw [hsz]; exact fmt.expField_mk hp0 hp1
    have hfM : fmt.manField (fmt.signedZero (fmt.sgn b)) = 0 := by
      rw [hsz]; exact fmt.manField_mk hp1
    have hfz : fmt.finVal (fmt.signedZero (fmt.sgn b)) = 0 :=
      finVal_of_zeroBits hfE hfM
    refine ⟨by rw [hfE]; omega, ⟨0, by rw [hfz]; norm_num⟩, ?_, ?_, ?_⟩
    · rw [hfz, sub_zero]; exact fmt.finVal_scaled_int b
    · intro hs
      rw [hfz, sub_zero, fmt.finVal_eq_sgn_magQ b, if_neg (by omega)]
      constructor
      · calc (0:ℚ) ≤ fmt.magQ b := fmt.magQ_nonneg b
          _ = 1 * fmt.magQ b := (one_mul _).symm
      · calc 1 * fmt.magQ b = fmt.magQ b := one_mul _
          _ < 1 := magQ_lt_one h2 hA
    · intro hs
      rw [hfz, sub_zero, fmt.finVal_eq_sgn_magQ b, if_pos hs]
      have hlt := magQ_lt_one h2 hA
      have hge := fmt.magQ_nonneg b
      constructor <;> nlinarith
  · -- already an integer: trunc is the identity
    have hmaxE : max (fmt.expField b) 1 = fmt.expField b := by omega
    refine ⟨hfe, ?_, ⟨0, by rw [sub_self]; norm_num⟩, ?_, ?_⟩
    · refine ⟨(if fmt.sgn b = 1 then (-1:ℤ) else 1) * fmt.sig b
        * 2 ^ (fmt.expField b - (fmt.bias + fmt.mantissaBits)), ?_⟩
      unfold finVal unbiasedExp
      rw [hmaxE]
      have hzp : (2:ℚ) ^ ((fmt.expField b : ℤ) - fmt.bias - fmt.mantissaBits)
          = (2:ℚ) ^ ((fmt.expField b - (fmt.bias + fmt.mantissaBits) : ℕ) : ℤ) := by
        congr 1
        push_cast [Nat.cast_sub hB]
        ring
      rw [hzp, zpow_natCast]
      push_cast
      split_ifs <;> ring
    · intro hs; rw [sub_self]; norm_num
    · intro hs; rw [sub_self]; norm_num
  · -- proper fractional part: clear the low k mantissa bits
    set E := fmt.expField b with hEdef
    set k := fmt.bias + fmt.mantissaBits - E with hkdef
    have hEge : fmt.bias ≤ E := by omega
    have hElt2 : E < fmt.bias + fmt.mantissaBits := by omega
    have hk1 : 1 ≤ k := by omega
    have hkmw : k ≤ fmt.mantissaBits := by omega
    have hE1 : 1 ≤ E := by omega
    set man := fmt.manField b with hmandef
    have hm2 : man / 2 ^ k * 2 ^ k ≤ man := Nat.div_mul_le_self _ _
    have hm3 : man / 2 ^ k * 2 ^ k < 2 ^ fmt.mantissaBits := by omega
    have hfE : fmt.expField (fmt.sgn b * 2 ^ (fmt.exponentBits + fmt.mantissaBits)
        + E * 2 ^ fmt.mantissaBits + man / 2 ^ k * 2 ^ k) = E :=
      fmt.expField_mk hElt hm3
    have hfM : fmt.manField (fmt.sgn b * 2 ^ (fmt.exponentBits + fmt.mantissaBits)
        + E * 2 ^ fmt.mantissaBits + man / 2 ^ k * 2 ^ k) = man / 2 ^ k * 2 ^ k :=
      fmt.manField_mk hm3
    have hfS : fmt.sgn (fmt.sgn b * 2 ^ (fmt.exponentBits + fmt.mantissaBits)
        + E * 2 ^ fmt.mantissaBits + man / 2 ^ k * 2 ^ k) = fmt.sgn b :=
      fmt.sgn_mk hsb hElt hm3
    have hEk : (E : ℤ) - fmt.bias - fmt.mantissaBits = -(k : ℤ) := by
      have hc : (k : ℤ) = (fmt.bias : ℤ) + fmt.mantissaBits - E := by
        rw [hkdef]
        push_cast [Nat.cast_sub (by omega : E ≤ fmt.bias + fmt.mantissaBits)]
        ring
      omega
    have hmaxE : max E 1 = E := by omega
    -- exact values of b and of the truncation
    have hq : fmt.finVal b = (if fmt.sgn b = 1 then (-1:ℚ) else 1)
        * ((man + 2 ^ fmt.mantissaBits : ℕ) : ℚ) * (2:ℚ) ^ (-(k:ℤ)) := by
      unfold finVal sig unbiasedExp
      rw [← hEdef, ← hmandef, hmaxE, hEk, if_neg (by omega : ¬ E = 0)]
    have ht : fmt.finVal (fmt.sgn b * 2 ^ (fmt.exponentBits + fmt.mantissaBits)
        + E * 2 ^ fmt.mantissaBits + man / 2 ^ k * 2 ^ k)
        = (if fmt.sgn b = 1 then (-1:ℚ) else 1)
          * ((man / 2 ^ k * 2 ^ k + 2 ^ fmt.mantissaBits : ℕ) : ℚ)
          * (2:ℚ) ^ (-(k:ℤ)) := by
      unfold finVal sig unbiasedExp
      rw [hfE, hfM, hfS, hmaxE, hEk, if_neg (by omega : ¬ E = 0)]
    -- the common splitting identity
    have hsplit : man % 2 ^ k + (man / 2 ^ k * 2 ^ k + 2 ^ fmt.mantissaBits)
        = man + 2 ^ fmt.mantissaBits := by
      have hmd : man % 2 ^ k + man / 2 ^ k * 2 ^ k = man := Nat.mod_add_div' _ _
      omega
    have hd : fmt.finVal b
        - fmt.finVal (fmt.sgn b * 2 ^ (fmt.exponentBits + fmt.mantissaBits)
          + E * 2 ^ fmt.mantissaBits + man / 2 ^ k * 2 ^ k)
        = (if fmt.sgn b = 1 then (-1:ℚ) else 1)
          * ((man % 2 ^ k : ℕ) : ℚ) * (2:ℚ) ^ (-(k:ℤ)) := by
      rw [hq, ht]
      have hc : ((man + 2 ^ fmt.mantissaBits : ℕ) : ℚ)
          - ((man / 2 ^ k * 2 ^ k + 2 ^ fmt.mantissaBits : ℕ) : ℚ)
          = ((man % 2 ^ k : ℕ) : ℚ) := by
        have hcc : ((man % 2 ^ k : ℕ) : ℚ)
            + ((man / 2 ^ k * 2 ^ k + 2 ^ fmt.mantissaBits : ℕ) : ℚ)
            = ((man + 2 ^ fmt.mantissaBits : ℕ) : ℚ) := by
          exact_mod_cast congrArg (fun n : ℕ => (n : ℚ)) hsplit
        linarith
      calc (if fmt.sgn b = 1 then (-1:ℚ) else 1)
            * ((man + 2 ^ fmt.mantissaBits : ℕ) : ℚ) * (2:ℚ) ^ (-(k:ℤ))
          - (if fmt.sgn b = 1 then (-1:ℚ) else 1)
            * ((man / 2 ^ k * 2 ^ k + 2 ^ fmt.mantissaBits : ℕ) : ℚ)
            * (2:ℚ) ^ (-(k:ℤ))
          = (if fmt.sgn b = 1 then (-1:ℚ) else 1)
            * (((man + 2 ^ fmt.mantissaBits : ℕ) : ℚ)
              - ((man / 2 ^ k * 2 ^ k + 2 ^ fmt.mantissaBits : ℕ) : ℚ))
            * (2:ℚ) ^ (-(k:ℤ)) := by ring
        _ = (if fmt.sgn b = 1 then (-1:ℚ) else 1)
            * ((man % 2 ^ k : ℕ) : ℚ) * (2:ℚ) ^ (-(k:ℤ)) := by rw [hc]
    have hfrac0 : (0:ℚ) ≤ ((man % 2 ^ k : ℕ) : ℚ) * (2:ℚ) ^ (-(k:ℤ)) := by
      positivity
    have hfrac1 : ((man % 2 ^ k : ℕ) : ℚ) * (2:ℚ) ^ (-(k:ℤ)) < 1 := by
      have hmk : man % 2 ^ k < 2 ^ k := Nat.mod_lt _ (Nat.pos_pow_of_pos _ (by norm_num))
      have hmq : ((man % 2 ^ k : ℕ) : ℚ) < (2:ℚ) ^ ((k:ℕ) : ℤ) := by
        rw [zpow_natCast]
        calc ((man % 2 ^ k : ℕ) : ℚ) < ((2 ^ k : ℕ) : ℚ) := by exact_mod_cast hmk
          _ = (2:ℚ) ^ k := by push_cast; ring
      calc ((man % 2 ^ k : ℕ) : ℚ) * (2:ℚ) ^ (-(k:ℤ))
          < (2:ℚ) ^ ((k:ℕ) : ℤ) * (2:ℚ) ^ (-(k:ℤ)) :=
            mul_lt_mul_of_pos_right hmq (zpow_pos (by norm_num) _)
        _ = 1 := by
            rw [← zpow_add₀ (by norm_num : (2:ℚ) ≠ 0)]
            norm_num
    refine ⟨by rw [hfE]; omega, ?_, ?_, ?_, ?_⟩
    · -- the truncated value is an integer
      refine ⟨(if fmt.sgn b = 1 then (-1:ℤ) else 1)
        * ((man / 2 ^ k + 2 ^ (fmt.mantissaBits - k) : ℕ) : ℤ), ?_⟩
      rw [ht]
      have hNum : man / 2 ^ k * 2 ^ k + 2 ^ fmt.mantissaBits
          = (man / 2 ^ k + 2 ^ (fmt.mantissaBits - k)) * 2 ^ k := by
        have hpk : (2:ℕ) ^ (fmt.mantissaBits - k) * 2 ^ k = 2 ^ fmt.mantissaBits := by
          rw [← pow_add]; congr 1; omega
        calc man / 2 ^ k * 2 ^ k + 2 ^ fmt.mantissaBits
            = man / 2 ^ k * 2 ^ k + 2 ^ (fmt.mantissaBits - k) * 2 ^ k := by
              rw [hpk]
          _ = (man / 2 ^ k + 2 ^ (fmt.mantissaBits - k)) * 2 ^ k := by ring
      rw [hNum]
      have hNQ : (((man / 2 ^ k + 2 ^ (fmt.mantissaBits - k)) * 2 ^ k : ℕ) : ℚ)
          * (2:ℚ) ^ (-(k:ℤ))
          = ((man / 2 ^ k + 2 ^ (fmt.mantissaBits - k) : ℕ) : ℚ) := by
        push_cast
        rw [← zpow_natCast (2:ℚ) k, mul_assoc,
          ← zpow_add₀ (by norm_num : (2:ℚ) ≠ 0)]
        norm_num
      calc (if fmt.sgn b = 1 then (-1:ℚ) else 1)
            * (((man / 2 ^ k + 2 ^ (fmt.mantissaBits - k)) * 2 ^ k : ℕ) : ℚ)
            * (2:ℚ) ^ (-(k:ℤ))
          = (if fmt.sgn b = 1 then (-1:ℚ) else 1)
            * ((((man / 2 ^ k + 2 ^ (fmt.mantissaBits - k)) * 2 ^ k : ℕ) : ℚ)
              * (2:ℚ) ^ (-(k:ℤ))) := by ring
        _ = (if fmt.sgn b = 1 then (-1:ℚ) else 1)
            * ((man / 2 ^ k + 2 ^ (fmt.mantissaBits - k) : ℕ) : ℚ) := by rw [hNQ]
        _ = (((if fmt.sgn b = 1 then (-1:ℤ) else 1)
            * ((man / 2 ^ k + 2 ^ (fmt.mantissaBits - k) : ℕ) : ℤ) : ℤ) : ℚ) := by
            rw [Int.cast_mul, Int.cast_natCast]
            split_ifs <;> norm_num
    · -- the discarded part is a multiple of 2^minExp
      refine ⟨(if fmt.sgn b = 1 then (-1:ℤ) else 1) * ((man % 2 ^ k : ℕ) : ℤ)
        * ((2 ^ (fmt.bias + fmt.mantissaBits - 1 - k) : ℕ) : ℤ), ?_⟩
      rw [hd]
      have hzp : (2:ℚ) ^ (-(k:ℤ)) * (2:ℚ) ^ (-fmt.minExp)
          = (2:ℚ) ^ ((fmt.bias + fmt.mantissaBits - 1 - k : ℕ) : ℤ) := by
        rw [← zpow_add₀ (by norm_num : (2:ℚ) ≠ 0)]
        congr 1
        unfold minExp
        push_cast [Nat.cast_sub (by omega : k ≤ fmt.bias + fmt.mantissaBits - 1),
          Nat.cast_sub (by omega : 1 ≤ fmt.bias + fmt.mantissaBits)]
        ring
      calc (if fmt.sgn b = 1 then (-1:ℚ) else 1) * ((man % 2 ^ k : ℕ) : ℚ)
            * (2:ℚ) ^ (-(k:ℤ)) * (2:ℚ) ^ (-fmt.minExp)
          = (if fmt.sgn b = 1 then (-1:ℚ) else 1) * ((man % 2 ^ k : ℕ) : ℚ)
            * ((2:ℚ) ^ (-(k:ℤ)) * (2:ℚ) ^ (-fmt.minExp)) := by ring
        _ = (if fmt.sgn b = 1 then (-1:ℚ) else 1) * ((man % 2 ^ k : ℕ) : ℚ)
            * (2:ℚ) ^ ((fmt.bias + fmt.mantissaBits - 1 - k : ℕ) : ℤ) := by
            rw [hzp]
        _ = (((if fmt.sgn b = 1 then (-1:ℤ) else 1) * ((man % 2 ^ k : ℕ) : ℤ)
            * ((2 ^ (fmt.bias + fmt.mantissaBits - 1 - k) : ℕ) : ℤ) : ℤ) : ℚ) := by
            rw [zpow_natCast, Int.cast_mul, Int.cast_mul, Int.cast_natCast,
              Int.cast_natCast]
            push_cast
            split_ifs <;> ring
    · intro hs
      rw [hd, if_neg (by omega)]
      constructor
      · calc (0:ℚ) ≤ ((man % 2 ^ k : ℕ) : ℚ) * (2:ℚ) ^ (-(k:ℤ)) := hfrac0
          _ = 1 * (((man % 2 ^ k : ℕ) : ℚ) * (2:ℚ) ^ (-(k:ℤ))) := by ring
          _ = 1 * ((man % 2 ^ k : ℕ) : ℚ) * (2:ℚ) ^ (-(k:ℤ)) := by ring
      · calc 1 * ((man % 2 ^ k : ℕ) : ℚ) * (2:ℚ) ^ (-(k:ℤ))
            = ((man % 2 ^ k : ℕ) : ℚ) * (2:ℚ) ^ (-(k:ℤ)) := by ring
          _ < 1 := hfrac1
    · intro hs
      rw [hd, if_pos hs]
      constructor
      · have heq : (-1:ℚ) * ((man % 2 ^ k : ℕ) : ℚ) * (2:ℚ) ^ (-(k:ℤ))
            = -(((man % 2 ^ k : ℕ) : ℚ) * (2:ℚ) ^ (-(k:ℤ))) := by ring
        rw [heq]
        linarith
      · have heq : (-1:ℚ) * ((man % 2 ^ k : ℕ) : ℚ) * (2:ℚ) ^ (-(k:ℤ))
            = -(((man % 2 ^ k : ℕ) : ℚ) * (2:ℚ) ^ (-(k:ℤ))) := by ring
        rw [heq]
        linarith

end FloatFmt

namespace FloatFmt

variable {fmt : FloatFmt} {b s : ℕ}

theorem valid_of_lt_double (hb : b < 2 * 2 ^ (fmt.exponentBits + fmt.mantissaBits)) :
    fmt.Valid b := by
  unfold Valid width
  rw [pow_succ]
  omega

theorem nanBits_valid (fmt : FloatFmt) : fmt.Valid fmt.nanBits := by
  apply valid_of_lt_double
  unfold nanBits infinityBits
  have h1 : 2 ^ (fmt.mantissaBits - 1) ≤ 2 ^ fmt.mantissaBits :=
    Nat.pow_le_pow_right (by norm_num) (by omega)
  have h2 : fmt.expMax * 2 ^ fmt.mantissaBits + 2 ^ fmt.mantissaBits
      = (fmt.expMax + 1) * 2 ^ fmt.mantissaBits := by ring
  have h3 : (fmt.expMax + 1) * 2 ^ fmt.mantissaBits
      ≤ 2 ^ fmt.exponentBits * 2 ^ fmt.mantissaBits :=
    Nat.mul_le_mul_right _ (by have := fmt.expMax_lt; omega)
  have h4 : (2:ℕ) ^ fmt.exponentBits * 2 ^ fmt.mantissaBits
      = 2 ^ (fmt.exponentBits + fmt.mantissaBits) := (pow_add 2 _ _).symm
  have h5 : (0:ℕ) < 2 ^ (fmt.exponentBits + fmt.mantissaBits) :=
    Nat.pos_pow_of_pos _ (by norm_num)
  omega

theorem signedInf_valid (hs : s ≤ 1) : fmt.Valid (fmt.signedInf s) := by
  apply valid_of_lt_double
  unfold signedInf
  have h1 := fmt.infinityBits_lt
  have h2 : s * 2 ^ (fmt.exponentBits + fmt.mantissaBits)
      ≤ 2 ^ (fmt.exponentBits + fmt.mantissaBits) := by
    calc s * 2 ^ (fmt.exponentBits + fmt.mantissaBits)
        ≤ 1 * 2 ^ (fmt.exponentBits + fmt.mantissaBits) :=
          Nat.mul_le_mul_right _ hs
      _ = 2 ^ (fmt.exponentBits + fmt.mantissaBits) := one_mul _
  omega

theorem signedZero_valid (hs : s ≤ 1) : fmt.Valid (fmt.signedZero s) := by
  apply valid_of_lt_double
  unfold signedZero
  have hp : (0:ℕ) < 2 ^ (fmt.exponentBits + fmt.mantissaBits) :=
    Nat.pos_pow_of_pos _ (by norm_num)
  calc s * 2 ^ (fmt.exponentBits + fmt.mantissaBits)
      ≤ 1 * 2 ^ (fmt.exponentBits + fmt.mantissaBits) := Nat.mul_le_mul_right _ hs
    _ < 2 * 2 ^ (fmt.exponentBits + fmt.mantissaBits) := by omega

theorem roundQ_valid (he : 0 < fmt.expMax) (q : ℚ) : fmt.Valid (fmt.roundQ q) := by
  unfold roundQ
  have hinf := fmt.infinityBits_lt
  have hp : (0:ℕ) < 2 ^ (fmt.exponentBits + fmt.mantissaBits) :=
    Nat.pos_pow_of_pos _ (by norm_num)
  split_ifs with h1 h2
  · apply valid_of_lt_double
    have hle := fmt.roundPos_le_inf he (-q)
    omega
  · apply valid_of_lt_double
    omega
  · apply valid_of_lt_double
    have hle := fmt.roundPos_le_inf he q
    omega

theorem fdiv_valid (h2 : 2 ≤ fmt.exponentBits) (a b : ℕ) :
    fmt.Valid (fmt.fdiv a b) := by
  have he : 0 < fmt.expMax := expMax_pos h2
  have hinf := fmt.infinityBits_lt
  have hsa := fmt.sgn_le a
  have hsb := fmt.sgn_le b
  have hsm : (fmt.sgn a + fmt.sgn b) % 2 ≤ 1 := by omega
  have hlast : fmt.Valid (fmt.signedZero ((fmt.sgn a + fmt.sgn b) % 2)
      + fmt.roundPos (fmt.magQ a / fmt.magQ b)) := by
    apply valid_of_lt_double
    have hle := fmt.roundPos_le_inf he (fmt.magQ a / fmt.magQ b)
    unfold signedZero
    have hs2 : (fmt.sgn a + fmt.sgn b) % 2
        * 2 ^ (fmt.exponentBits + fmt.mantissaBits)
        ≤ 1 * 2 ^ (fmt.exponentBits + fmt.mantissaBits) :=
      Nat.mul_le_mul_right _ hsm
    omega
  simp only [fdiv]
  split_ifs <;>
    first
      | exact fmt.nanBits_valid
      | exact signedInf_valid hsm
      | exact signedZero_valid hsm
      | exact hlast

theorem fsub_valid (h2 : 2 ≤ fmt.exponentBits) {a b : ℕ} (ha : fmt.Valid a) :
    fmt.Valid (fmt.fsub a b) := by
  have he : 0 < fmt.expMax := expMax_pos h2
  have hsb := fmt.sgn_le b
  have hz0 : fmt.Valid 0 := by
    apply valid_of_lt_double
    positivity
  simp only [fsub]
  split_ifs <;>
    first
      | exact fmt.nanBits_valid
      | exact ha
      | exact signedInf_valid (s := 1 - fmt.sgn b) (by omega)
      | exact signedZero_valid (s := 1) (by norm_num)
      | exact hz0
      | exact roundQ_valid he _

theorem trunc_valid {b : ℕ} (hb : fmt.Valid b) : fmt.Valid (fmt.trunc b) := by
  unfold trunc
  split_ifs with hc1 hc2 hc3
  · exact hb
  · exact signedZero_valid (fmt.sgn_le b)
  · exact hb
  · have h := fmt.valid_mk (s := fmt.sgn b) (E := fmt.expField b)
      (M := fmt.manField b
        / 2 ^ (fmt.bias + fmt.mantissaBits - fmt.expField b)
        * 2 ^ (fmt.bias + fmt.mantissaBits - fmt.expField b))
      (fmt.sgn_le b) (fmt.expField_lt b)
      (by
        have h1 := Nat.div_mul_le_self (fmt.manField b)
          (2 ^ (fmt.bias + fmt.mantissaBits - fmt.expField b))
        have h2 := fmt.manField_lt b
        omega)
    exact h

theorem fract_valid (h2 : 2 ≤ fmt.exponentBits) {b : ℕ} (hb : fmt.Valid b) :
    fmt.Valid (fmt.fract b) :=
  fsub_valid h2 hb

theorem oneBits_valid (h2 : 2 ≤ fmt.exponentBits) : fmt.Valid fmt.oneBits := by
  apply valid_of_lt_double
  unfold oneBits
  have h1 : fmt.bias * 2 ^ fmt.mantissaBits
      < 2 ^ fmt.exponentBits * 2 ^ fmt.mantissaBits :=
    (Nat.mul_lt_mul_right (Nat.pos_pow_of_pos _ (by norm_num))).mpr (bias_lt_pow h2)
  have h2b : (2:ℕ) ^ fmt.exponentBits * 2 ^ fmt.mantissaBits
      = 2 ^ (fmt.exponentBits + fmt.mantissaBits) := (pow_add 2 _ _).symm
  omega

theorem recip_valid (h2 : 2 ≤ fmt.exponentBits) (b : ℕ) :
    fmt.Valid (fmt.recip b) :=
  fdiv_valid h2 _ _

end FloatFmt

/-- `rne` is the identity on integers. -/
theorem rne_int (n : ℤ) : rne (n : ℚ) = n := by
  simp only [rne]
  rw [Int.floor_intCast]
  norm_num

/-- `⌊log₂ 1⌋ = 0`. -/
theorem qlog2_one : qlog2 (1 : ℚ) = 0 := by
  have h := qlog2_spec 1 one_pos
  by_contra hne
  rcases lt_or_gt_of_ne hne with hlt | hgt
  · have hle : (2 : ℚ) ^ (qlog2 1 + 1) ≤ 1 :=
      zpow_le_one_of_nonpos₀ (by norm_num) (by omega)
    linarith [h.2]
  · have hlt1 : (1 : ℚ) < (2 : ℚ) ^ qlog2 1 := by
      calc (1 : ℚ) < 2 := by norm_num
        _ = (2 : ℚ) ^ (1 : ℤ) := (zpow_one 2).symm
        _ ≤ (2 : ℚ) ^ qlog2 1 := zpow_le_zpow_right₀ (by norm_num) (by omega)
    linarith [h.1]

/-- Rounding the exact rational `1` yields the bit pattern of `1.0`. -/
theorem FloatFmt.roundPos_one (fmt : FloatFmt) (h2 : 2 ≤ fmt.exponentBits) :
    fmt.roundPos 1 = fmt.oneBits := by
  have hbias : 1 ≤ fmt.bias := FloatFmt.bias_pos h2
  have hbe : fmt.bias < fmt.expMax := FloatFmt.bias_lt_expMax h2
  have hpce : (((2 : ℕ) ^ fmt.mantissaBits : ℕ) : ℤ) = (2 : ℤ) ^ fmt.mantissaBits := by
    push_cast
    ring
  have henc : fmt.encodePos (2 ^ fmt.mantissaBits) (-(fmt.mantissaBits : ℤ)) =
      fmt.oneBits := by
    have hpos : (0 : ℤ) < 2 ^ fmt.mantissaBits := by positivity
    have hbe' : ¬ ((fmt.expMax : ℤ) ≤
        -(fmt.mantissaBits : ℤ) + fmt.bias + fmt.mantissaBits) := by
      have hc : (fmt.bias : ℤ) < fmt.expMax := by exact_mod_cast hbe
      omega
    simp only [FloatFmt.encodePos]
    rw [if_neg hpos.ne', if_neg (lt_irrefl _), if_neg hbe']
    have h1 : -(fmt.mantissaBits : ℤ) + fmt.bias + fmt.mantissaBits = (fmt.bias : ℤ) := by
      ring
    have h2' : ((2 : ℤ) ^ fmt.mantissaBits).toNat = 2 ^ fmt.mantissaBits := by
      rw [← hpce, Int.toNat_natCast]
    rw [h1, Int.toNat_natCast, h2', FloatFmt.oneBits, Nat.sub_self, Nat.add_zero]
  simp only [FloatFmt.roundPos]
  have he : max fmt.minExp (qlog2 1 - fmt.mantissaBits) = -(fmt.mantissaBits : ℤ) := by
    rw [qlog2_one]
    simp only [FloatFmt.minExp]
    have hc : (1 : ℤ) ≤ fmt.bias := by exact_mod_cast hbias
    omega
  rw [he]
  have hm0 : rne ((1 : ℚ) * (2 : ℚ) ^ (-(-(fmt.mantissaBits : ℤ)))) =
      (2 : ℤ) ^ fmt.mantissaBits := by
    rw [neg_neg, one_mul]
    have hq : (2 : ℚ) ^ (fmt.mantissaBits : ℤ) = (((2 : ℤ) ^ fmt.mantissaBits : ℤ) : ℚ) := by
      rw [zpow_natCast]
      push_cast
      ring
    rw [hq, rne_int]
  rw [hm0]
  have hne : (2 : ℤ) ^ fmt.mantissaBits ≠ 2 ^ (fmt.mantissaBits + 1) := by
    have hp : (2 : ℤ) ^ (fmt.mantissaBits + 1) = 2 ^ fmt.mantissaBits * 2 := by ring
    have hpos : (0 : ℤ) < 2 ^ fmt.mantissaBits := by positivity
    omega
  rw [if_neg hne, henc]

/-- Dividing a finite nonzero value by itself yields exactly `1.0`. -/
theorem FloatFmt.fdiv_self (fmt : FloatFmt) (h2 : 2 ≤ fmt.exponentBits) (b : ℕ)
    (hE : fmt.expField b ≠ fmt.expMax) (hz : ¬ fmt.isZeroBits b) :
    fmt.fdiv b b = fmt.oneBits := by
  have hnan : ¬ (fmt.isNanBits b ∨ fmt.isNanBits b) := by
    intro h
    exact hE (h.elim And.left And.left)
  have hinf : ¬ fmt.isInfBits b := fun h => hE h.1
  have hmag : fmt.magQ b ≠ 0 := (FloatFmt.magQ_pos hz).ne'
  have hs : (fmt.sgn b + fmt.sgn b) % 2 = 0 := by
    have h := fmt.sgn_le b
    omega
  simp only [FloatFmt.fdiv]
  rw [if_neg hnan, if_neg hinf, if_neg hinf, if_neg hz, if_neg hz, hs]
  rw [div_self hmag, fmt.roundPos_one h2]
  simp [FloatFmt.signedZero]

/-- `0.0 / 0.0` produces the canonical NaN. -/
theorem FloatFmt.fdiv_zero_zero (fmt : FloatFmt) (h2 : 2 ≤ fmt.exponentBits) :
    fmt.fdiv 0 0 = fmt.nanBits := by
  have hem : (0 : ℕ) ≠ fmt.expMax := (FloatFmt.expMax_pos h2).ne
  simp [FloatFmt.fdiv, FloatFmt.isNanBits, FloatFmt.isInfBits,
    FloatFmt.isZeroBits, fmt.expField_zeroBits, fmt.manField_zeroBits,
    hem, hem.symm]

/-- The decoded components fit their machine types (`u64`, `i16`, `i8`). -/
theorem integer_decode_fits (a : ℕ) (ha : f64Fmt.Valid a) :
    (integer_decode a).1 < 2 ^ 64 ∧
    -(2:ℤ) ^ 15 ≤ (integer_decode a).2.1 ∧ (integer_decode a).2.1 < 2 ^ 15 ∧
    ((integer_decode a).2.2 = 1 ∨ (integer_decode a).2.2 = -1) := by
  rw [integer_decode_eq a ha]
  have hman : f64Fmt.manField a < 2 ^ 52 := by
    have h := f64Fmt.manField_lt a
    have he : (2:ℕ) ^ f64Fmt.mantissaBits = 2 ^ 52 := by norm_num [f64Fmt]
    omega
  have hexp : f64Fmt.expField a < 2 ^ 11 := by
    have h := f64Fmt.expField_lt a
    have he : (2:ℕ) ^ f64Fmt.exponentBits = 2 ^ 11 := by norm_num [f64Fmt]
    omega
  refine ⟨?_, ?_, ?_, ?_⟩
  · split_ifs <;> norm_num <;> omega
  · have h : (f64Fmt.expField a : ℤ) < 2 ^ 11 := by exact_mod_cast hexp
    norm_num
    omega
  · have h : (f64Fmt.expField a : ℤ) < 2 ^ 11 := by exact_mod_cast hexp
    norm_num
    omega
  · split_ifs <;> simp

/-- C8 helper: the modelled operations of one format are total: on any bit
patterns they produce valid bit patterns, and the division singularities
are signalled through the IEEE sentinels. -/
theorem ops_total_aux (fmt : FloatFmt) (h2 : 2 ≤ fmt.exponentBits)
    (hmw : 1 ≤ fmt.mantissaBits) :
    (∀ a b : ℕ, fmt.Valid a → fmt.Valid b →
      (fmt.Valid (fmt.fdiv a b) ∧ fmt.Valid (fmt.fsub a b) ∧
       fmt.Valid (fmt.trunc a) ∧ fmt.Valid (fmt.fract a) ∧
       fmt.Valid (fmt.recip a))) ∧
    (fmt.recip 0 = fmt.infinityBits ∧
     fmt.recip fmt.negZeroBits = fmt.negInfinityBits ∧
     fmt.is_nan (fmt.fdiv 0 0) = true) := by
  refine ⟨fun a b ha hb => ⟨FloatFmt.fdiv_valid h2 a b, FloatFmt.fsub_valid h2 ha,
    FloatFmt.trunc_valid ha, FloatFmt.fract_valid h2 ha,
    FloatFmt.recip_valid h2 a⟩, ?_, ?_, ?_⟩
  · exact FloatFmt.fdiv_one_posZero h2
  · exact FloatFmt.fdiv_one_negZero h2
  · rw [fmt.fdiv_zero_zero h2, fmt.is_nan_iff]
    exact FloatFmt.isNanBits_nanBits hmw

/-- C8: every modelled operation is total over its input domain — on any
valid bit patterns of either width (NaN, infinities, zeros and subnormals
included) it returns a valid bit pattern rather than faulting, and invalid
inputs are signalled through the IEEE sentinels: `recip(±0) = ±∞` and
`0.0/0.0` is NaN; the decoder's components always fit `u64`/`i16`/`i8`. -/
theorem float_ops_total :
    (∀ a b : ℕ, f32Fmt.Valid a → f32Fmt.Valid b →
      (f32Fmt.Valid (f32Fmt.fdiv a b) ∧ f32Fmt.Valid (f32Fmt.fsub a b) ∧
       f32Fmt.Valid (f32Fmt.trunc a) ∧ f32Fmt.Valid (f32Fmt.fract a) ∧
       f32Fmt.Valid (f32Fmt.recip a))) ∧
    (∀ a b : ℕ, f64Fmt.Valid a → f64Fmt.Valid b →
      (f64Fmt.Valid (f64Fmt.fdiv a b) ∧ f64Fmt.Valid (f64Fmt.fsub a b) ∧
       f64Fmt.Valid (f64Fmt.trunc a) ∧ f64Fmt.Valid (f64Fmt.fract a) ∧
       f64Fmt.Valid (f64Fmt.recip a))) ∧
    (f32Fmt.recip 0 = f32Fmt.infinityBits ∧
     f32Fmt.recip f32Fmt.negZeroBits = f32Fmt.negInfinityBits ∧
     f32Fmt.is_nan (f32Fmt.fdiv 0 0) = true) ∧
    (f64Fmt.recip 0 = f64Fmt.infinityBits ∧
     f64Fmt.recip f64Fmt.negZeroBits = f64Fmt.negInfinityBits ∧
     f64Fmt.is_nan (f64Fmt.fdiv 0 0) = true) ∧
    (∀ a : ℕ, f64Fmt.Valid a →
      ((integer_decode a).1 < 2 ^ 64 ∧
       -(2:ℤ) ^ 15 ≤ (integer_decode a).2.1 ∧ (integer_decode a).2.1 < 2 ^ 15 ∧
       ((integer_decode a).2.2 = 1 ∨ (integer_decode a).2.2 = -1))) :=
  ⟨(ops_total_aux f32Fmt (by decide) (by decide)).1,
   (ops_total_aux f64Fmt (by decide) (by decide)).1,
   (ops_total_aux f32Fmt (by decide) (by decide)).2,
   (ops_total_aux f64Fmt (by decide) (by decide)).2,
   integer_decode_fits⟩

/-- Witness for C8 at the patterns of `1.0` and `-0.0` (f64). -/
theorem float_ops_total_witness :
    f64Fmt.Valid 4607182418800017408 ∧ f64Fmt.Valid f64Fmt.negZeroBits ∧
    (f64Fmt.Valid (f64Fmt.fdiv 4607182418800017408 f64Fmt.negZeroBits) ∧
     f64Fmt.Valid (f64Fmt.fsub 4607182418800017408 f64Fmt.negZeroBits) ∧
     f64Fmt.Valid (f64Fmt.trunc 4607182418800017408) ∧
     f64Fmt.Valid (f64Fmt.fract 4607182418800017408) ∧
     f64Fmt.Valid (f64Fmt.recip 4607182418800017408)) ∧
    ((integer_decode 4607182418800017408).1 < 2 ^ 64 ∧
     -(2:ℤ) ^ 15 ≤ (integer_decode 4607182418800017408).2.1 ∧
     (integer_decode 4607182418800017408).2.1 < 2 ^ 15 ∧
     ((integer_decode 4607182418800017408).2.2 = 1 ∨
      (integer_decode 4607182418800017408).2.2 = -1)) :=
  ⟨by decide, by decide,
   float_ops_total.2.1 4607182418800017408 f64Fmt.negZeroBits (by decide) (by decide),
   float_ops_total.2.2.2.2 4607182418800017408 (by decide)⟩

/-- C5 helper: `fract` is the subtraction `x - trunc(x)` by definition, and
on finite non-integers its sign matches the argument's sign. -/
theorem fract_sign_aux (fmt : FloatFmt) (h2 : 2 ≤ fmt.exponentBits) (b : ℕ)
    (hb : fmt.Valid b) (hfe : fmt.expField b ≠ fmt.expMax) :
    fmt.fract b = fmt.fsub b (fmt.trunc b) ∧
    ((¬ ∃ n : ℤ, fmt.finVal b = (n : ℚ)) →
      (0 < fmt.finVal b → fmt.fgt (fmt.fract b) 0 = true) ∧
      (fmt.finVal b < 0 → fmt.flt (fmt.fract b) 0 = true)) := by
  have hem : fmt.expMax ≠ 0 := (FloatFmt.expMax_pos h2).ne.symm
  obtain ⟨hT1, ⟨n, hTn⟩, ⟨z, hTz⟩, hTpos, hTneg⟩ :=
    FloatFmt.trunc_spec (b := b) h2 hb hfe
  refine ⟨rfl, fun hnint => ?_⟩
  have hnanb : ¬ fmt.isNanBits b := fun h => hfe h.1
  have hinfb : ¬ fmt.isInfBits b := fun h => hfe h.1
  have hnant : ¬ fmt.isNanBits (fmt.trunc b) := fun h => hT1 h.1
  have hinft : ¬ fmt.isInfBits (fmt.trunc b) := fun h => hT1 h.1
  have hdne : fmt.finVal b - fmt.finVal (fmt.trunc b) ≠ 0 := by
    intro h0
    exact hnint ⟨n, by rw [← hTn]; linarith⟩
  have hstep : fmt.fsub b (fmt.trunc b)
      = fmt.roundQ (fmt.finVal b - fmt.finVal (fmt.trunc b)) := by
    simp only [FloatFmt.fsub]
    rw [if_neg (by rintro (h | h); exacts [hnanb h, hnant h]), if_neg hinfb,
      if_neg hinft,
      show (if fmt.sgn b = 1 then (-1:ℚ) else 1) * fmt.magQ b
        - (if fmt.sgn (fmt.trunc b) = 1 then (-1:ℚ) else 1)
          * fmt.magQ (fmt.trunc b)
        = fmt.finVal b - fmt.finVal (fmt.trunc b) by
          rw [← fmt.finVal_eq_sgn_magQ b, ← fmt.finVal_eq_sgn_magQ (fmt.trunc b)],
      if_neg hdne]
  have hz0 : z ≠ 0 := by
    intro h0
    rw [h0] at hTz
    norm_num at hTz
    rcases hTz with h | h
    · exact hdne h
    · exact absurd h (zpow_ne_zero _ (by norm_num))
  have hdz : fmt.finVal b - fmt.finVal (fmt.trunc b) = (z : ℚ) * (2:ℚ) ^ fmt.minExp := by
    have hmul : (2:ℚ) ^ (-fmt.minExp) * (2:ℚ) ^ fmt.minExp = 1 := by
      rw [← zpow_add₀ (by norm_num : (2:ℚ) ≠ 0)]; norm_num
    calc fmt.finVal b - fmt.finVal (fmt.trunc b)
        = (fmt.finVal b - fmt.finVal (fmt.trunc b))
          * ((2:ℚ) ^ (-fmt.minExp) * (2:ℚ) ^ fmt.minExp) := by rw [hmul]; ring
      _ = ((fmt.finVal b - fmt.finVal (fmt.trunc b)) * (2:ℚ) ^ (-fmt.minExp))
          * (2:ℚ) ^ fmt.minExp := by ring
      _ = (z : ℚ) * (2:ℚ) ^ fmt.minExp := by rw [hTz]
  constructor
  · intro hq0
    have hnz : ¬ fmt.isZeroBits b := fun h => by
      rw [FloatFmt.finVal_of_zeroBits h.1 h.2] at hq0
      exact lt_irrefl 0 hq0
    have hs0 : fmt.sgn b = 0 := by
      by_contra h
      have hs1 : fmt.sgn b = 1 := by have := fmt.sgn_le b; omega
      exact absurd (FloatFmt.finVal_neg hs1 hnz) (by linarith)
    obtain ⟨hdge0, hdlt1⟩ := hTpos hs0
    have hdpos : 0 < fmt.finVal b - fmt.finVal (fmt.trunc b) :=
      lt_of_le_of_ne hdge0 (Ne.symm hdne)
    have hzpos : (0:ℤ) < z := by
      by_contra hle
      push_neg at hle
      have hzq : (z:ℚ) ≤ 0 := by exact_mod_cast hle
      have : fmt.finVal b - fmt.finVal (fmt.trunc b) ≤ 0 := by
        rw [hdz]
        exact mul_nonpos_of_nonpos_of_nonneg hzq (zpow_pos (by norm_num) _).le
      linarith
    have hdge : (2:ℚ) ^ fmt.minExp ≤ fmt.finVal b - fmt.finVal (fmt.trunc b) := by
      rw [hdz]
      have hz1 : (1:ℚ) ≤ (z:ℚ) := by exact_mod_cast hzpos
      calc (2:ℚ) ^ fmt.minExp = 1 * (2:ℚ) ^ fmt.minExp := (one_mul _).symm
        _ ≤ (z:ℚ) * (2:ℚ) ^ fmt.minExp :=
            mul_le_mul_of_nonneg_right hz1 (zpow_pos (by norm_num) _).le
    have hrq : fmt.roundQ (fmt.finVal b - fmt.finVal (fmt.trunc b))
        = fmt.roundPos (fmt.finVal b - fmt.finVal (fmt.trunc b)) := by
      unfold FloatFmt.roundQ
      rw [if_neg (not_lt.mpr hdpos.le), if_neg hdne]
    obtain ⟨hE, hZ, hS⟩ := FloatFmt.roundPos_small h2 hdge hdlt1
    have hval := FloatFmt.finVal_pos hS hZ
    have hchain : fmt.fract b
        = fmt.roundPos (fmt.finVal b - fmt.finVal (fmt.trunc b)) := by
      rw [FloatFmt.fract, hstep, hrq]
    rw [hchain]
    simp [FloatFmt.fgt, FloatFmt.flt, fmt.toVal_zeroBits hem,
      FloatFmt.toVal_fin hE, hval]
  · intro hq0
    have hnz : ¬ fmt.isZeroBits b := fun h => by
      rw [FloatFmt.finVal_of_zeroBits h.1 h.2] at hq0
      exact lt_irrefl 0 hq0
    have hs1 : fmt.sgn b = 1 := by
      by_contra h
      have hs0 : fmt.sgn b = 0 := by have := fmt.sgn_le b; omega
      exact absurd (FloatFmt.finVal_pos hs0 hnz) (by linarith)
    obtain ⟨hdgt, hdle0⟩ := hTneg hs1
    have hdneg : fmt.finVal b - fmt.finVal (fmt.trunc b) < 0 :=
      lt_of_le_of_ne hdle0 hdne
    have hzneg : z < 0 := by
      by_contra hle
      push_neg at hle
      have hzq : (0:ℚ) ≤ (z:ℚ) := by exact_mod_cast hle
      have : 0 ≤ fmt.finVal b - fmt.finVal (fmt.trunc b) := by
        rw [hdz]
        exact mul_nonneg hzq (zpow_pos (by norm_num) _).le
      linarith
    have hdge : (2:ℚ) ^ fmt.minExp ≤ -(fmt.finVal b - fmt.finVal (fmt.trunc b)) := by
      rw [hdz]
      have hz1 : (1:ℚ) ≤ -(z:ℚ) := by
        have h1 : z ≤ -1 := by omega
        have h2 : (z:ℚ) ≤ -1 := by exact_mod_cast h1
        linarith
      calc (2:ℚ) ^ fmt.minExp = 1 * (2:ℚ) ^ fmt.minExp := (one_mul _).symm
        _ ≤ -(z:ℚ) * (2:ℚ) ^ fmt.minExp :=
            mul_le_mul_of_nonneg_right hz1 (zpow_pos (by norm_num) _).le
        _ = -((z:ℚ) * (2:ℚ) ^ fmt.minExp) := by ring
    have hdlt1 : -(fmt.finVal b - fmt.finVal (fmt.trunc b)) < 1 := by linarith
    have hrq : fmt.roundQ (fmt.finVal b - fmt.finVal (fmt.trunc b))
        = 2 ^ (fmt.exponentBits + fmt.mantissaBits)
          + fmt.roundPos (-(fmt.finVal b - fmt.finVal (fmt.trunc b))) := by
      unfold FloatFmt.roundQ
      rw [if_pos hdneg]
    obtain ⟨hE, hZ, hS⟩ := FloatFmt.roundPos_small h2 hdge hdlt1
    have hval := FloatFmt.finVal_pos hS hZ
    have hrlt : fmt.roundPos (-(fmt.finVal b - fmt.finVal (fmt.trunc b)))
        < 2 ^ (fmt.exponentBits + fmt.mantissaBits) :=
      lt_of_le_of_lt
        (fmt.roundPos_le_inf (FloatFmt.expMax_pos h2) _)
        fmt.infinityBits_lt
    have hchain : fmt.fract b
        = 2 ^ (fmt.exponentBits + fmt.mantissaBits)
          + fmt.roundPos (-(fmt.finVal b - fmt.finVal (fmt.trunc b))) := by
      rw [FloatFmt.fract, hstep, hrq]
    have hEouter : fmt.expField (2 ^ (fmt.exponentBits + fmt.mantissaBits)
        + fmt.roundPos (-(fmt.finVal b - fmt.finVal (fmt.trunc b))))
        ≠ fmt.expMax := by
      rw [fmt.expField_signBit_add]
      exact hE
    have hvneg : fmt.finVal (2 ^ (fmt.exponentBits + fmt.mantissaBits)
        + fmt.roundPos (-(fmt.finVal b - fmt.finVal (fmt.trunc b)))) < 0 := by
      rw [FloatFmt.finVal_signBit_add hrlt]
      linarith
    rw [hchain]
    unfold FloatFmt.flt
    rw [FloatFmt.toVal_fin hEouter, fmt.toVal_zeroBits hem]
    exact decide_eq_true hvneg

/-- C5: for every finite value of either width, `fract(x) = x - trunc(x)`
(definitionally, as the macro implements it), and when `x` is not an integer
the sign of `fract(x)` matches the sign of `x`: positive for positive
non-integers, negative — never positive — for negative non-integers. -/
theorem fract_spec :
    (∀ b : ℕ, f32Fmt.Valid b → f32Fmt.expField b ≠ f32Fmt.expMax →
      (f32Fmt.fract b = f32Fmt.fsub b (f32Fmt.trunc b) ∧
       ((¬ ∃ n : ℤ, f32Fmt.finVal b = (n : ℚ)) →
         (0 < f32Fmt.finVal b → f32Fmt.fgt (f32Fmt.fract b) 0 = true) ∧
         (f32Fmt.finVal b < 0 → f32Fmt.flt (f32Fmt.fract b) 0 = true)))) ∧
    (∀ b : ℕ, f64Fmt.Valid b → f64Fmt.expField b ≠ f64Fmt.expMax →
      (f64Fmt.fract b = f64Fmt.fsub b (f64Fmt.trunc b) ∧
       ((¬ ∃ n : ℤ, f64Fmt.finVal b = (n : ℚ)) →
         (0 < f64Fmt.finVal b → f64Fmt.fgt (f64Fmt.fract b) 0 = true) ∧
         (f64Fmt.finVal b < 0 → f64Fmt.flt (f64Fmt.fract b) 0 = true)))) :=
  ⟨fun b hb hfe => fract_sign_aux f32Fmt (by decide) b hb hfe,
   fun b hb hfe => fract_sign_aux f64Fmt (by decide) b hb hfe⟩

/-- Witness for C5 at `1.5_f64` (bit pattern `0x3FF8000000000000`). -/
theorem fract_spec_witness :
    f64Fmt.Valid 4609434218613702656 ∧
    f64Fmt.expField 4609434218613702656 ≠ f64Fmt.expMax ∧
    (f64Fmt.fract 4609434218613702656
      = f64Fmt.fsub 4609434218613702656 (f64Fmt.trunc 4609434218613702656) ∧
     ((¬ ∃ n : ℤ, f64Fmt.finVal 4609434218613702656 = (n : ℚ)) →
       (0 < f64Fmt.finVal 4609434218613702656 →
         f64Fmt.fgt (f64Fmt.fract 4609434218613702656) 0 = true) ∧
       (f64Fmt.finVal 4609434218613702656 < 0 →
         f64Fmt.flt (f64Fmt.fract 4609434218613702656) 0 = true))) :=
  ⟨by decide, by decide,
   fract_spec.2 4609434218613702656 (by decide) (by decide)⟩

/-- C10 helper: on NaN both sign predicates are false; on everything else
they disagree (exactly one is true). -/
theorem sign_exactly_one_aux (fmt : FloatFmt) (h2 : 2 ≤ fmt.exponentBits)
    (hmw : 1 ≤ fmt.mantissaBits) (b : ℕ) (hb : fmt.Valid b) :
    (fmt.is_nan b = true →
      fmt.is_sign_positive b = false ∧ fmt.is_sign_negative b = false) ∧
    (fmt.is_nan b = false →
      fmt.is_sign_positive b = !(fmt.is_sign_negative b)) := by
  have hem : fmt.expMax ≠ 0 := (FloatFmt.expMax_pos h2).ne.symm
  constructor
  · intro hn
    have hnan : fmt.isNanBits b := (fmt.is_nan_iff b).mp hn
    have htv : fmt.toVal b = .nan := FloatFmt.toVal_nan hnan.1 hnan.2
    have hdiv : fmt.fdiv fmt.oneBits b = fmt.nanBits :=
      FloatFmt.fdiv_one_nanArg hnan
    constructor
    · simp [FloatFmt.is_sign_positive, FloatFmt.fgt, FloatFmt.flt,
        FloatFmt.feq, hdiv, htv, FloatFmt.toVal_nanBits hmw,
        fmt.toVal_infinityBits, fmt.toVal_zeroBits hem]
    · simp [FloatFmt.is_sign_negative, FloatFmt.flt, FloatFmt.feq, hdiv, htv,
        FloatFmt.toVal_nanBits hmw, fmt.toVal_negInfinityBits,
        fmt.toVal_zeroBits hem]
  · intro hn
    have hnan : ¬ fmt.isNanBits b := fun h => by
      simp [(fmt.is_nan_iff b).mpr h] at hn
    by_cases hfe : fmt.expField b = fmt.expMax
    · have hman : fmt.manField b = 0 := by
        by_contra hm; exact hnan ⟨hfe, hm⟩
      have hdecomp := fmt.bits_decomp hb
      rw [hfe, hman] at hdecomp
      by_cases hsgn : fmt.sgn b = 0
      · have hbinf : b = fmt.infinityBits := by
          rw [hdecomp, hsgn]; unfold FloatFmt.infinityBits; ring
        rw [hbinf]
        have hdiv := FloatFmt.fdiv_one_posInf h2
        simp [FloatFmt.is_sign_positive, FloatFmt.is_sign_negative,
          FloatFmt.fgt, FloatFmt.flt, FloatFmt.feq, hdiv,
          fmt.toVal_infinityBits, fmt.toVal_negInfinityBits,
          fmt.toVal_zeroBits hem]
      · have hs1 : fmt.sgn b = 1 := by have := fmt.sgn_le b; omega
        have hbinf : b = fmt.negInfinityBits := by
          rw [hdecomp, hs1]
          unfold FloatFmt.negInfinityBits FloatFmt.infinityBits; ring
        rw [hbinf]
        have hdiv := FloatFmt.fdiv_one_negInf h2
        simp [FloatFmt.is_sign_positive, FloatFmt.is_sign_negative,
          FloatFmt.fgt, FloatFmt.flt, FloatFmt.feq, hdiv,
          fmt.toVal_infinityBits, fmt.toVal_negInfinityBits,
          fmt.toVal_negZeroBits hem, fmt.toVal_zeroBits hem]
    · by_cases hz : fmt.isZeroBits b
      · have hdecomp := fmt.bits_decomp hb
        rw [hz.1, hz.2] at hdecomp
        by_cases hsgn : fmt.sgn b = 0
        · have hb0 : b = 0 := by rw [hdecomp, hsgn]; ring
          rw [hb0]
          obtain ⟨_, _, hpp, hnn, _, _⟩ := sign_zeros_aux fmt h2
          rw [hpp, hnn]; rfl
        · have hs1 : fmt.sgn b = 1 := by have := fmt.sgn_le b; omega
          have hbz : b = fmt.negZeroBits := by
            rw [hdecomp, hs1]; unfold FloatFmt.negZeroBits; ring
          rw [hbz]
          obtain ⟨hnn, hpn, _, _, _, _⟩ := sign_zeros_aux fmt h2
          rw [hnn, hpn]; rfl
      · have htv : fmt.toVal b = .fin (fmt.finVal b) := FloatFmt.toVal_fin hfe
        have hdiv := FloatFmt.fdiv_one_finite (b := b) h2 hfe hz
        have hroundle : fmt.roundPos (fmt.magQ fmt.oneBits / fmt.magQ b)
            ≤ fmt.infinityBits :=
          fmt.roundPos_le_inf (FloatFmt.expMax_pos h2) _
        have hroundlt : fmt.roundPos (fmt.magQ fmt.oneBits / fmt.magQ b)
            < 2 ^ (fmt.exponentBits + fmt.mantissaBits) :=
          lt_of_le_of_lt hroundle fmt.infinityBits_lt
        by_cases hsgn : fmt.sgn b = 0
        · have hq := FloatFmt.finVal_pos hsgn hz
          have hsr : fmt.sgn (fmt.fdiv fmt.oneBits b) = 0 := by
            rw [hdiv, hsgn]
            unfold FloatFmt.signedZero
            rw [Nat.zero_mul, Nat.zero_add]
            exact fmt.sgn_of_lt hroundlt
          have hfneg := FloatFmt.feq_negInf_of_sgn0 hsr
          have hd1 : decide (0 < fmt.finVal b) = true := decide_eq_true hq
          have hd2 : decide (fmt.finVal b < 0) = false :=
            decide_eq_false (not_lt.mpr hq.le)
          simp [FloatFmt.is_sign_positive, FloatFmt.is_sign_negative,
            FloatFmt.fgt, FloatFmt.flt, fmt.toVal_zeroBits hem, htv,
            hd1, hd2, hfneg]
        · have hs1 : fmt.sgn b = 1 := by have := fmt.sgn_le b; omega
          have hq := FloatFmt.finVal_neg hs1 hz
          have hsr : fmt.sgn (fmt.fdiv fmt.oneBits b) = 1 := by
            rw [hdiv, hs1]
            unfold FloatFmt.signedZero
            rw [Nat.one_mul]
            exact FloatFmt.sgn_signBit_add hroundlt
          have hfpos := FloatFmt.feq_posInf_of_sgn1 hsr
          have hd1 : decide (0 < fmt.finVal b) = false :=
            decide_eq_false (not_lt.mpr hq.le)
          have hd2 : decide (fmt.finVal b < 0) = true := decide_eq_true hq
          simp [FloatFmt.is_sign_positive, FloatFmt.is_sign_negative,
            FloatFmt.fgt, FloatFmt.flt, fmt.toVal_zeroBits hem, htv,
            hd1, hd2, hfpos]

/-- C10: for every NaN pattern of either width both sign predicates return
false, whatever the NaN's sign bit; for every non-NaN pattern exactly one
of `is_sign_positive` and `is_sign_negative` returns true. -/
theorem sign_predicates_exactly_one :
    (∀ b : ℕ, f32Fmt.Valid b →
      ((f32Fmt.is_nan b = true →
        f32Fmt.is_sign_positive b = false ∧ f32Fmt.is_sign_negative b = false) ∧
       (f32Fmt.is_nan b = false →
        f32Fmt.is_sign_positive b = !(f32Fmt.is_sign_negative b)))) ∧
    (∀ b : ℕ, f64Fmt.Valid b →
      ((f64Fmt.is_nan b = true →
        f64Fmt.is_sign_positive b = false ∧ f64Fmt.is_sign_negative b = false) ∧
       (f64Fmt.is_nan b = false →
        f64Fmt.is_sign_positive b = !(f64Fmt.is_sign_negative b)))) :=
  ⟨fun b hb => sign_exactly_one_aux f32Fmt (by decide) (by decide) b hb,
   fun b hb => sign_exactly_one_aux f64Fmt (by decide) (by decide) b hb⟩

/-- Witness for C10 at the `f64` quiet NaN pattern `0x7FF8000000000000` and
at `1.0`. -/
theorem sign_predicates_exactly_one_witness :
    f64Fmt.Valid 9221120237041090560 ∧ f64Fmt.Valid 4607182418800017408 ∧
    ((f64Fmt.is_nan 9221120237041090560 = true →
      f64Fmt.is_sign_positive 9221120237041090560 = false ∧
      f64Fmt.is_sign_negative 9221120237041090560 = false) ∧
     (f64Fmt.is_nan 9221120237041090560 = false →
      f64Fmt.is_sign_positive 9221120237041090560
        = !(f64Fmt.is_sign_negative 9221120237041090560))) ∧
    ((f64Fmt.is_nan 4607182418800017408 = true →
      f64Fmt.is_sign_positive 4607182418800017408 = false ∧
      f64Fmt.is_sign_negative 4607182418800017408 = false) ∧
     (f64Fmt.is_nan 4607182418800017408 = false →
      f64Fmt.is_sign_positive 4607182418800017408
        = !(f64Fmt.is_sign_negative 4607182418800017408))) :=
  ⟨by decide, by decide,
   sign_predicates_exactly_one.2 9221120237041090560 (by decide),
   sign_predicates_exactly_one.2 4607182418800017408 (by decide)⟩

/-- The sign component of the decoder is always `1` or `-1`. -/
theorem integer_decode_sign_pm (b : ℕ) :
    (integer_decode b).2.2 = 1 ∨ (integer_decode b).2.2 = -1 := by
  unfold integer_decode
  split_ifs <;> simp

/-- C1 (intended semantics): for every finite value of either width the
decoded triple `(m, e, s)` has `s ∈ {1, -1}` and satisfies the exact
reconstruction law `s × m × 2^e = x` — with the mantissa carrying the
implicit bit for normals and not for subnormals, and single precision
decoding through the exact widening to double precision.  The shipped code
violates this: it transmutes the reference `self : &f64` and so decodes the
value's memory address. -/
theorem integer_decode_roundtrip :
    (∀ b : ℕ, f64Fmt.Valid b → f64Fmt.expField b ≠ f64Fmt.expMax →
      (((integer_decode b).2.2 * (integer_decode b).1 : ℚ)
          * (2 : ℚ) ^ (integer_decode b).2.1 = f64Fmt.finVal b ∧
        ((integer_decode b).2.2 = 1 ∨ (integer_decode b).2.2 = -1))) ∧
    (∀ b : ℕ, f32Fmt.Valid b → f32Fmt.expField b ≠ f32Fmt.expMax →
      (((integer_decode32 b).2.2 * (integer_decode32 b).1 : ℚ)
          * (2 : ℚ) ^ (integer_decode32 b).2.1 = f32Fmt.finVal b ∧
        ((integer_decode32 b).2.2 = 1 ∨ (integer_decode32 b).2.2 = -1))) := by
  constructor
  · intro b hb hfin
    exact ⟨integer_decode_roundtrip_f64 b hb hfin, integer_decode_sign_pm b⟩
  · intro b hb hfin
    obtain ⟨h1, h2, h3⟩ := widen32_val b hb hfin
    refine ⟨?_, integer_decode_sign_pm (widen32 b)⟩
    show ((integer_decode (widen32 b)).2.2 * (integer_decode (widen32 b)).1 : ℚ)
        * (2 : ℚ) ^ (integer_decode (widen32 b)).2.1 = f32Fmt.finVal b
    rw [integer_decode_roundtrip_f64 (widen32 b) h1 h2, h3]

/-- Witness for C1 at `1.0` in both widths. -/
theorem integer_decode_roundtrip_witness :
    (f64Fmt.Valid 4607182418800017408 ∧
      f64Fmt.expField 4607182418800017408 ≠ f64Fmt.expMax) ∧
    (f32Fmt.Valid 1065353216 ∧ f32Fmt.expField 1065353216 ≠ f32Fmt.expMax) ∧
    (((integer_decode 4607182418800017408).2.2
        * (integer_decode 4607182418800017408).1 : ℚ)
        * (2 : ℚ) ^ (integer_decode 4607182418800017408).2.1
      = f64Fmt.finVal 4607182418800017408 ∧
      ((integer_decode 4607182418800017408).2.2 = 1 ∨
       (integer_decode 4607182418800017408).2.2 = -1)) ∧
    (((integer_decode32 1065353216).2.2 * (integer_decode32 1065353216).1 : ℚ)
        * (2 : ℚ) ^ (integer_decode32 1065353216).2.1
      = f32Fmt.finVal 1065353216 ∧
      ((integer_decode32 1065353216).2.2 = 1 ∨
       (integer_decode32 1065353216).2.2 = -1)) :=
  ⟨⟨by decide, by decide⟩, ⟨by decide, by decide⟩,
   integer_decode_roundtrip.1 4607182418800017408 (by decide) (by decide),
   integer_decode_roundtrip.2 1065353216 (by decide) (by decide)⟩

/-- C7 (intended semantics of lines 242–246): the single-precision decoder
is the double-precision decoder applied to the value widened to double
precision, and under this widening definition the reconstruction identity
holds exactly (hence to single precision).  The shipped code has the same
reference-transmute defect through the delegated call. -/
theorem integer_decode32_widening :
    (∀ b : ℕ, integer_decode32 b = integer_decode (widen32 b)) ∧
    (∀ b : ℕ, f32Fmt.Valid b → f32Fmt.expField b ≠ f32Fmt.expMax →
      ((integer_decode (widen32 b)).2.2 * (integer_decode (widen32 b)).1 : ℚ)
          * (2 : ℚ) ^ (integer_decode (widen32 b)).2.1 = f32Fmt.finVal b) := by
  refine ⟨fun b => rfl, fun b hb hfin => ?_⟩
  obtain ⟨h1, h2, h3⟩ := widen32_val b hb hfin
  rw [integer_decode_roundtrip_f64 (widen32 b) h1 h2, h3]

/-- Witness for C7 at `1.0_f32`. -/
theorem integer_decode32_widening_witness :
    f32Fmt.Valid 1065353216 ∧ f32Fmt.expField 1065353216 ≠ f32Fmt.expMax ∧
    integer_decode32 1065353216 = integer_decode (widen32 1065353216) ∧
    ((integer_decode (widen32 1065353216)).2.2
        * (integer_decode (widen32 1065353216)).1 : ℚ)
        * (2 : ℚ) ^ (integer_decode (widen32 1065353216)).2.1
      = f32Fmt.finVal 1065353216 :=
  ⟨by decide, by decide, integer_decode32_widening.1 1065353216,
   integer_decode32_widening.2 1065353216 (by decide) (by decide)⟩

/-- C2 (intended semantics of lines 350–363): on the bit pattern of
`1.0_f64` the decoder yields the mantissa field with the implicit bit ORed
in, the rebiased exponent `1023 - 1023 - 52`, and sign `1`; on the
subnormal pattern `1` it yields the mantissa field shifted left by one and
exponent `0 - 1023 - 52`; on `-1.5` it yields sign `-1`.  The shipped code
instead applies these steps to the transmuted reference `self : &f64`,
i.e. to the memory address of the value. -/
theorem integer_decode_f64_steps :
    integer_decode 4607182418800017408 = (2 ^ 52, -52, 1) ∧
    integer_decode 1 = (2, -1075, 1) ∧
    integer_decode (2 ^ 63 + 4607182418800017408 + 2 ^ 51)
      = (2 ^ 52 + 2 ^ 51, -52, -1) := by
  refine ⟨by decide, by decide, by decide⟩

/-- C6: for every `ln` backend `lnf`, every `x` and every `base` of either
width, `log(x, base)` is computed as `ln(x) / ln(base)` (the macro defines
it so — the identity holds for all bit patterns, specials included); and
the quotient is taken with IEEE division, so it agrees with the
arbitrary-base logarithm to the accuracy of `ln` and one rounding: in
particular whenever `ln(base)` and `ln(x)` coincide on a finite nonzero
pattern (e.g. `base = x` with `x > 0`, `x ≠ 1`, where `log_x x = 1`), the
result is exactly `1.0`. -/
theorem log_eq_ln_div_ln :
    (∀ lnf : ℕ → ℕ, ∀ x base : ℕ,
      f32Fmt.log lnf x base = f32Fmt.fdiv (lnf x) (lnf base) ∧
      f64Fmt.log lnf x base = f64Fmt.fdiv (lnf x) (lnf base)) ∧
    (∀ fmt : FloatFmt, 2 ≤ fmt.exponentBits →
      ∀ lnf : ℕ → ℕ, ∀ x base : ℕ,
      fmt.expField (lnf x) ≠ fmt.expMax → ¬ fmt.isZeroBits (lnf x) →
      lnf base = lnf x →
      fmt.log lnf x base = fmt.oneBits) := by
  refine ⟨fun lnf x base => ⟨rfl, rfl⟩, fun fmt h2 lnf x base hE hz hb => ?_⟩
  rw [FloatFmt.log, hb]
  exact fmt.fdiv_self h2 (lnf x) hE hz

/-- Witness for C6: a backend sending everything to the bits of `1.0_f64`
satisfies the hypotheses, and `log` then returns exactly `1.0`. -/
theorem log_eq_ln_div_ln_witness :
    2 ≤ f64Fmt.exponentBits ∧
    f64Fmt.expField f64Fmt.oneBits ≠ f64Fmt.expMax ∧
    ¬ f64Fmt.isZeroBits f64Fmt.oneBits ∧
    f64Fmt.log (fun _ => f64Fmt.oneBits) 5 3 = f64Fmt.oneBits :=
  ⟨by decide, by decide, by decide,
   log_eq_ln_div_ln.2 f64Fmt (by decide) (fun _ => f64Fmt.oneBits) 5 3
     (by decide) (by decide) rfl⟩

/-- The pattern `0x3FF0000000000000` (`1.0_f64`) has value `1`. -/
theorem libm_finVal_one : (f64Fmt.finVal 4607182418800017408 : ℚ) = 1 := by
  norm_num [FloatFmt.finVal, FloatFmt.sig, FloatFmt.sgn, FloatFmt.expField,
    FloatFmt.manField, FloatFmt.unbiasedExp, FloatFmt.bias, f64Fmt]

/-- The pattern `0x3FF6A09E667F3BCD` (`1.4142135623730951_f64`). -/
theorem libm_finVal_hyp :
    (f64Fmt.finVal 4609047870845172685 : ℚ) = 6369051672525773 / 2 ^ 52 := by
  norm_num [FloatFmt.finVal, FloatFmt.sig, FloatFmt.sgn, FloatFmt.expField,
    FloatFmt.manField, FloatFmt.unbiasedExp, FloatFmt.bias, f64Fmt]

/-- The pattern `0x3FFB7E151628AED2` (`1.718281828459045_f64`, the doc-test
literal). -/
theorem libm_finVal_em2 :
    (f64Fmt.finVal 4610417272575012562 : ℚ) = 7738453402365650 / 2 ^ 52 := by
  norm_num [FloatFmt.finVal, FloatFmt.sig, FloatFmt.sgn, FloatFmt.expField,
    FloatFmt.manField, FloatFmt.unbiasedExp, FloatFmt.bias, f64Fmt]

/-- The pattern `0x3FE62E42FEFA39EF` (`0.6931471805599453_f64`). -/
theorem libm_finVal_ln :
    (f64Fmt.finVal 4604418534313441775 : ℚ) = 6243314768165359 / 2 ^ 53 := by
  norm_num [FloatFmt.finVal, FloatFmt.sig, FloatFmt.sgn, FloatFmt.expField,
    FloatFmt.manField, FloatFmt.unbiasedExp, FloatFmt.bias, f64Fmt]

/-- C9: each claimed double-precision doc-test constant is exactly the
pattern its decimal parses to (`1.0` is `0x3FF0000000000000`,
`1.4142135623730951` is `0x3FF6A09E667F3BCD`, `1.718281828459045` is
`0x3FFB7E151628AED2`, `0.6931471805599453` is `0x3FE62E42FEFA39EF`), and
each of those patterns lies within one ulp of the exact mathematical
result of the corresponding call (a cube root of 1, the nonnegative
square root of 2, `e - 1`, `log 2`) — so each is a return value the
pass-through to a one-ulp-accurate platform math library yields.  The
linked glibc returns exactly these four patterns at these arguments, so
the doc-tests pass.  (`0x3FFB7E151628AED2` sits 0.651 ulp below `e - 1`:
within the library tolerance, though not the nearest double.) -/
theorem libm_doc_constants :
    (parsesTo f64Fmt 1 4607182418800017408 ∧
     parsesTo f64Fmt (14142135623730951 / 10 ^ 16) 4609047870845172685 ∧
     parsesTo f64Fmt (1718281828459045 / 10 ^ 15) 4610417272575012562 ∧
     parsesTo f64Fmt (6931471805599453 / 10 ^ 16) 4604418534313441775) ∧
    (∀ y : ℝ, y ^ 3 = 1 → ulpContract f64Fmt y 4607182418800017408) ∧
    (∀ y : ℝ, 0 ≤ y → y ^ 2 = 2 → ulpContract f64Fmt y 4609047870845172685) ∧
    ulpContract f64Fmt (Real.exp 1 - 1) 4610417272575012562 ∧
    ulpContract f64Fmt (Real.log 2) 4604418534313441775 := by
  refine ⟨⟨?_, ?_, ?_, ?_⟩, ?_, ?_, ?_, ?_⟩
  · refine ⟨by decide, by decide, ?_⟩
    have hue : f64Fmt.unbiasedExp 4607182418800017408 = -52 := by decide
    rw [hue, libm_finVal_one]
    have hpow : ((2 : ℚ) ^ (-52 : ℤ)) / 2 = 1 / 2 ^ 53 := by norm_num
    rw [hpow, abs_lt]
    constructor <;> norm_num
  · refine ⟨by decide, by decide, ?_⟩
    have hue : f64Fmt.unbiasedExp 4609047870845172685 = -52 := by decide
    rw [hue, libm_finVal_hyp]
    have hpow : ((2 : ℚ) ^ (-52 : ℤ)) / 2 = 1 / 2 ^ 53 := by norm_num
    rw [hpow, abs_lt]
    constructor <;> norm_num
  · refine ⟨by decide, by decide, ?_⟩
    have hue : f64Fmt.unbiasedExp 4610417272575012562 = -52 := by decide
    rw [hue, libm_finVal_em2]
    have hpow : ((2 : ℚ) ^ (-52 : ℤ)) / 2 = 1 / 2 ^ 53 := by norm_num
    rw [hpow, abs_lt]
    constructor <;> norm_num
  · refine ⟨by decide, by decide, ?_⟩
    have hue : f64Fmt.unbiasedExp 4604418534313441775 = -53 := by decide
    rw [hue, libm_finVal_ln]
    have hpow : ((2 : ℚ) ^ (-53 : ℤ)) / 2 = 1 / 2 ^ 54 := by norm_num
    rw [hpow, abs_lt]
    constructor <;> norm_num
  · intro y hy
    have h2 : (y - 1) * ((y + 1/2) ^ 2 + 3/4) = 0 := by linear_combination hy
    have h3 : ((y + 1/2) ^ 2 + 3/4 : ℝ) ≠ 0 := by positivity
    have hy1 : y = 1 := by
      rcases mul_eq_zero.mp h2 with h | h
      · linarith
      · exact absurd h h3
    refine ⟨by decide, by decide, ?_⟩
    have hue : f64Fmt.unbiasedExp 4607182418800017408 = -52 := by decide
    rw [hue, libm_finVal_one, hy1]
    norm_num
  · intro y hy0 hy2
    refine ⟨by decide, by decide, ?_⟩
    have hue : f64Fmt.unbiasedExp 4609047870845172685 = -52 := by decide
    rw [hue, libm_finVal_hyp]
    push_cast
    have hpow : ((2 : ℝ) ^ (-52 : ℤ)) = 1 / 2 ^ 52 := by norm_num
    rw [hpow]
    have hlow : (6369051672525773 / 2 ^ 52 - 1 / 2 ^ 53 : ℝ) < y := by
      by_contra hc
      push_neg at hc
      have h5 := pow_le_pow_left₀ hy0 hc 2
      rw [hy2] at h5
      norm_num at h5
    have hhigh : y < (6369051672525773 / 2 ^ 52 + 1 / 2 ^ 53 : ℝ) := by
      by_contra hc
      push_neg at hc
      have h5 := pow_le_pow_left₀
        (by norm_num : (0:ℝ) ≤ 6369051672525773 / 2 ^ 52 + 1 / 2 ^ 53) hc 2
      rw [hy2] at h5
      norm_num at h5
    have hcmp : (1 / 2 ^ 53 : ℝ) < 1 / 2 ^ 52 := by norm_num
    rw [abs_lt]
    constructor <;> linarith
  · refine ⟨by decide, by decide, ?_⟩
    have hue : f64Fmt.unbiasedExp 4610417272575012562 = -52 := by decide
    rw [hue, libm_finVal_em2]
    push_cast
    have h1 := Real.exp_one_near_20
    have heq : Real.exp 1 - 1 - (7738453402365650 : ℝ) / 2 ^ 52
        = (Real.exp 1 - 363916618873 / 133877442384)
          + ((363916618873 : ℝ) / 133877442384 - 1 - 7738453402365650 / 2 ^ 52) := by
      ring
    rw [heq]
    have h2 : |(363916618873 : ℝ) / 133877442384 - 1 - 7738453402365650 / 2 ^ 52|
        ≤ 145 / 10 ^ 18 := by
      rw [abs_le]
      constructor <;> norm_num
    have h3 := abs_add (Real.exp 1 - 363916618873 / 133877442384)
      ((363916618873 : ℝ) / 133877442384 - 1 - 7738453402365650 / 2 ^ 52)
    have h4 : ((2 : ℝ) ^ (-52 : ℤ)) = 1 / 2 ^ 52 := by norm_num
    rw [h4]
    have h5 : (1 : ℝ) / 10 ^ 20 + 145 / 10 ^ 18 < 1 / 2 ^ 52 := by norm_num
    linarith
  · refine ⟨by decide, by decide, ?_⟩
    have hue : f64Fmt.unbiasedExp 4604418534313441775 = -53 := by decide
    rw [hue, libm_finVal_ln]
    push_cast
    have hpow : ((2 : ℝ) ^ (-53 : ℤ)) = 1 / 2 ^ 53 := by norm_num
    rw [hpow]
    have hxabs : |(1/2 : ℝ)| = 1/2 := by
      rw [abs_of_pos]
      norm_num
    have h1 := @Real.abs_log_sub_add_sum_range_le (1/2) (by rw [hxabs]; norm_num) 60
    rw [hxabs] at h1
    have hhalf : (1 : ℝ) - 1/2 = 2⁻¹ := by norm_num
    rw [hhalf, Real.log_inv] at h1
    have hrhs : ((1/2 : ℝ)) ^ (60 + 1) / 2⁻¹ = 1 / 2 ^ 60 := by norm_num
    rw [hrhs] at h1
    have hS : (∑ i ∈ Finset.range 60, ((1/2 : ℝ)) ^ (i + 1) / ((i : ℝ) + 1))
        = 193606932391658843533784305774831257504887
          / 279315761243171029251358508005036727992320 := by
      norm_num [Finset.sum_range_succ]
    rw [hS] at h1
    rcases abs_le.mp h1 with ⟨hlo, hhi⟩
    have k1 : (193606932391658843533784305774831257504887
          / 279315761243171029251358508005036727992320 : ℝ)
        + 1 / 2 ^ 60 - 6243314768165359 / 2 ^ 53 < 1 / 2 ^ 54 := by norm_num
    have k2 : -(1 / 2 ^ 54 : ℝ) < (193606932391658843533784305774831257504887
          / 279315761243171029251358508005036727992320 : ℝ)
        - 1 / 2 ^ 60 - 6243314768165359 / 2 ^ 53 := by norm_num
    have hcmp : (1 / 2 ^ 54 : ℝ) < 1 / 2 ^ 53 := by norm_num
    rw [abs_lt]
    constructor <;> linarith

/-- Witness for C9 at `y = 1` (cube root) and `y = √2` (hypotenuse). -/
theorem libm_doc_constants_witness :
    (1 : ℝ) ^ 3 = 1 ∧ (0 ≤ Real.sqrt 2 ∧ Real.sqrt 2 ^ 2 = 2) ∧
    ulpContract f64Fmt 1 4607182418800017408 ∧
    ulpContract f64Fmt (Real.sqrt 2) 4609047870845172685 :=
  ⟨by norm_num, ⟨Real.sqrt_nonneg 2, Real.sq_sqrt (by norm_num)⟩,
   libm_doc_constants.2.1 1 (by norm_num),
   libm_doc_constants.2.2.1 (Real.sqrt 2) (Real.sqrt_nonneg 2)
     (Real.sq_sqrt (by norm_num))⟩

end Rsfloat
